import Mathlib

/-!
Verification of the noodlification core and the regex-to-NFA front end of the
`mata` automata library, against its natural-language specification.

The control flow of `noodlify` / `noodlify_for_equation` (src/nfa/noodlify.cc)
and of the regex compiler (src/re2parser.cc) is embedded directly from the
source.  The NFA primitives those functions call (`trim`, `revert`, `reduce`,
`is_lang_empty`, `unify_initial`, `unify_final`, `concatenate_over_epsilon`,
`intersection_over_epsilon`, the `Segmentation` class and the alphabet) are
part of the same library but their code is not in the provided slice; each of
those is modelled from the specification and carries a doc comment starting
with `Modelled from the spec:`.
-/

set_option maxRecDepth 10000

namespace Mata

/-- A state is a non-negative integer identifier (spec §3). -/
abbrev State := Nat

/-- A symbol is an integer; ε is not a distinguished constant (spec §3). -/
abbrev Symbol := Nat

/-- A transition `(src, symbol, tgt)`; value type, structural equality (spec §3). -/
structure Trans where
  src : State
  symb : Symbol
  tgt : State
deriving DecidableEq

/-- The NFA tuple `(n, I, F, δ)` (spec §3).  `I` and `F` are sets (no
duplicates, represented as lists in insertion order), `δ` a set of
transitions. -/
structure Nfa where
  numStates : Nat
  initialstates : List State
  finalstates : List State
  trans : List Trans
deriving DecidableEq

instance : Inhabited Nfa := ⟨⟨0, [], [], []⟩⟩

/-- Set-semantics insertion into a state list (idempotent, spec §4.2). -/
def insertState (s : State) (l : List State) : List State :=
  if s ∈ l then l else l ++ [s]

/-- `get_num_of_states()`: returns `n` (spec §4.2). -/
def Nfa.get_num_of_states (a : Nfa) : Nat := a.numStates

/-- `add_new_state()`: allocate a fresh state, post-condition `n ← n+1`
(spec §4.2).  Returns the new state's id together with the updated NFA. -/
def Nfa.add_new_state (a : Nfa) : State × Nfa :=
  (a.numStates, { a with numStates := a.numStates + 1 })

/-- `add_trans(s, a, t)`: inserts `(s,a,t)` into δ; idempotent (spec §4.2). -/
def Nfa.add_trans (a : Nfa) (s : State) (sy : Symbol) (t : State) : Nfa :=
  if Trans.mk s sy t ∈ a.trans then a else { a with trans := a.trans ++ [Trans.mk s sy t] }

/-- `make_initial(s)`: set membership insert; idempotent (spec §4.2). -/
def Nfa.make_initial (a : Nfa) (s : State) : Nfa :=
  { a with initialstates := insertState s a.initialstates }

/-- `make_final(s)`: set membership insert; idempotent (spec §4.2). -/
def Nfa.make_final (a : Nfa) (s : State) : Nfa :=
  { a with finalstates := insertState s a.finalstates }

/-! ### Reachability and language

`is_lang_empty` is "pure reachability; no ε-semantics here — ε is just another
symbol" (spec §4.2).  We define the transition edge relation, word acceptance,
and an executable reachable-state computation by fixpoint iteration. -/

/-- One edge of the transition graph, ignoring the symbol. -/
def edgeRel (ts : List Trans) (x y : State) : Prop :=
  ∃ t ∈ ts, t.src = x ∧ t.tgt = y

/-- A path from `s` to `u` reading the word `w`. -/
inductive PathWord (ts : List Trans) : State → List Symbol → State → Prop
  | nil (s : State) : PathWord ts s [] s
  | cons {s u v : State} {a : Symbol} {w : List Symbol} :
      Trans.mk s a u ∈ ts → PathWord ts u w v → PathWord ts s (a :: w) v

/-- `w ∈ L(A)`: some initial-to-final path reads `w` (spec §4.2, §8). -/
def accepts (a : Nfa) (w : List Symbol) : Prop :=
  ∃ i ∈ a.initialstates, ∃ f ∈ a.finalstates, PathWord a.trans i w f

/-- `L(A) = ∅`. -/
def langEmpty (a : Nfa) : Prop := ∀ w, ¬ accepts a w

/-- One step of the reachability fixpoint: add all targets of transitions
whose source is already reached. -/
def stepSet (ts : List Trans) (S : Finset State) : Finset State :=
  S ∪ ((ts.filter (fun t => t.src ∈ S)).map (fun t => t.tgt)).toFinset

/-- Saturation bound: strictly more than the number of candidate states. -/
def reachBound (ts : List Trans) (init : List State) : Nat :=
  init.length + ts.length + 1

/-- States reachable from `init` over the transitions `ts`, by iterating
`stepSet` to its fixpoint. -/
def reachableFrom (ts : List Trans) (init : List State) : Finset State :=
  (stepSet ts)^[reachBound ts init] init.toFinset

/-- Modelled from the spec: `is_lang_empty(aut)` — "true iff no final state is
reachable from any initial state.  Pure reachability; no ε-semantics here"
(spec §4.2).  The implementation is not in the provided source slice. -/
def is_lang_empty (a : Nfa) : Bool :=
  a.finalstates.all (fun f => !(f ∈ reachableFrom a.trans a.initialstates))

/-! ### Modelled NFA operations -/

/-- All transition symbols of an NFA. -/
def Nfa.symbols (a : Nfa) : List Symbol := a.trans.map (fun t => t.symb)

/-- Modelled from the spec: the alphabet contract (spec §4.1) — after absorbing
the symbols of the given NFAs, `get_next_value()` "returns a symbol not equal
to any symbol previously returned by this alphabet and not present in any
absorbed NFA".  The `EnumAlphabet` implementation is not in the provided
source slice; we model the fresh value as one past the maximum absorbed
symbol. -/
def alphabetNextValue (auts : List Nfa) : Symbol :=
  ((auts.map Nfa.symbols).flatten.foldr max 0) + 1

/-- Modelled from the spec: `unify_initial` — "introduce one fresh initial
with ε-edges to the old initials, then replace `I` with the singleton"
(spec §4.5.2 step 2).  The implementation is not in the provided source
slice.  The spec does not fix which symbol labels these ε-edges (the
equation's ε is only chosen afterwards, spec §4.5.2 step 3); we model it as a
symbol fresh for this automaton. -/
def unify_initial (a : Nfa) : Nfa :=
  let fresh := a.numStates
  let eps := alphabetNextValue [a]
  { numStates := a.numStates + 1
    initialstates := [fresh]
    finalstates := a.finalstates
    trans := a.trans ++ a.initialstates.map (fun i => Trans.mk fresh eps i) }

/-- Modelled from the spec: `unify_final` — dual of `unify_initial`
(spec §4.5.2 step 2): one fresh final state with ε-edges from the old final
states, which it replaces. -/
def unify_final (a : Nfa) : Nfa :=
  let fresh := a.numStates
  let eps := alphabetNextValue [a]
  { numStates := a.numStates + 1
    initialstates := a.initialstates
    finalstates := [fresh]
    trans := a.trans ++ a.finalstates.map (fun f => Trans.mk f eps fresh) }

/-- Shift every state of a transition by `k` (disjoint-union embedding). -/
def shiftTrans (k : Nat) (t : Trans) : Trans := Trans.mk (t.src + k) t.symb (t.tgt + k)

/-- Modelled from the spec: `concatenate_over_epsilon(A, B, ε)` (spec §4.3) —
state space is the disjoint union (B shifted by `|A|`), `I_C = I_A`,
`F_C = F_B`, all transitions copied, and an ε-transition from every final
state of `A` to every initial state of `B`.  The implementation is not in the
provided source slice. -/
def concatenate_over_epsilon (A B : Nfa) (eps : Symbol) : Nfa :=
  { numStates := A.numStates + B.numStates
    initialstates := A.initialstates
    finalstates := B.finalstates.map (fun f => f + A.numStates)
    trans := A.trans ++ B.trans.map (shiftTrans A.numStates)
      ++ (A.finalstates.map (fun a =>
            B.initialstates.map (fun b => Trans.mk a eps (b + A.numStates)))).flatten }

/-- Pair encoding of a product state `(p, q)` over `B`'s state count. -/
def pairState (B : Nfa) (p q : State) : State := p * B.numStates + q

/-- All product transitions of `intersection_over_epsilon` (spec §4.3):
synchronised moves on non-ε symbols, and ε-as-stutter moves on each side. -/
def productTransAll (A B : Nfa) (eps : Symbol) : List Trans :=
  ((A.trans.filter (fun t => t.symb ≠ eps)).map (fun t =>
      (B.trans.filter (fun u => u.symb = t.symb)).map (fun u =>
        Trans.mk (pairState B t.src u.src) t.symb (pairState B t.tgt u.tgt)))).flatten
  ++ ((A.trans.filter (fun t => t.symb = eps)).map (fun t =>
      (List.range B.numStates).map (fun q =>
        Trans.mk (pairState B t.src q) eps (pairState B t.tgt q)))).flatten
  ++ ((B.trans.filter (fun u => u.symb = eps)).map (fun u =>
      (List.range A.numStates).map (fun p =>
        Trans.mk (pairState B p u.src) eps (pairState B p u.tgt)))).flatten

/-- Modelled from the spec: `intersection_over_epsilon(A, B, ε)` (spec §4.3) —
product construction with ε-as-stutter; "initial pairs are `I_A × I_B`; final
pairs are `F_A × F_B`"; built "lazily from the initial set; only reachable
pairs are materialized".  The implementation is not in the provided source
slice.  Pairs are encoded as `p·|B| + q`; the lazy construction is modelled by
keeping only transitions and final states reachable from the initial pairs
(the spec fixes no numbering of the materialized pairs, and every use in the
pipeline trims the result immediately). -/
def intersection_over_epsilon (A B : Nfa) (eps : Symbol) : Nfa :=
  let inits := (A.initialstates.map (fun p =>
      B.initialstates.map (fun q => pairState B p q))).flatten
  let allT := productTransAll A B eps
  let reach := reachableFrom allT inits
  { numStates := A.numStates * B.numStates
    initialstates := inits
    finalstates := ((A.finalstates.map (fun p =>
        B.finalstates.map (fun q => pairState B p q))).flatten).filter
        (fun s => s ∈ reach)
    trans := allT.filter (fun t => t.src ∈ reach) }

/-- Modelled from the spec: `trim()` — "removes states not on any `I→F` path;
renumbers the remaining states to `[0, n')`; preserves language" (spec §4.2).
The implementation is not in the provided source slice.  The kept states are
renumbered in ascending order of their old ids. -/
def trim (a : Nfa) : Nfa :=
  let fwd := reachableFrom a.trans a.initialstates
  let bwd := reachableFrom (a.trans.map (fun t => Trans.mk t.tgt t.symb t.src)) a.finalstates
  let keep := (List.range a.numStates).filter (fun s => s ∈ fwd ∧ s ∈ bwd)
  let ren := fun s => (keep.indexOf s)
  { numStates := keep.length
    initialstates := (a.initialstates.filter (fun s => s ∈ keep)).map ren
    finalstates := (a.finalstates.filter (fun s => s ∈ keep)).map ren
    trans := (a.trans.filter (fun t => t.src ∈ keep ∧ t.tgt ∈ keep)).map
      (fun t => Trans.mk (ren t.src) t.symb (ren t.tgt)) }

/-- Modelled from the spec: `revert()` — "returns NFA with `I` and `F` swapped
and every transition reversed" (spec §4.2).  The implementation is not in the
provided source slice. -/
def revert (a : Nfa) : Nfa :=
  { numStates := a.numStates
    initialstates := a.finalstates
    finalstates := a.initialstates
    trans := a.trans.map (fun t => Trans.mk t.tgt t.symb t.src) }

/-- Modelled from the spec: `reduce()` — "returns a language-equivalent NFA
with ≤ input's states, typically via simulation or bisimulation quotient;
must be idempotent up to isomorphism" (spec §4.2).  The implementation is not
in the provided source slice and the spec fixes no particular quotient; we
model it by the identity, a legal instance of the stated contract.  Every
claim about which reductions are dispatched (C7) is stated over arbitrary
`reduce`/`revert` functions, not over this instance. -/
def reduce (a : Nfa) : Nfa := a

/-! ### Segmentation (C4 of the spec)

Modelled from the spec (§3, §4.4): the `Segmentation` class is not in the
provided source slice.  Depth of a state is the minimal number of ε-edges on
a path from an initial state ("distance in ε-hops from an initial state,
counting only ε-edges"); an ε-transition is grouped at the depth of its
source; iteration over depths is ascending and within one depth the list
order is the construction order (the order of the transition list). -/

/-- States reachable using at most `d` ε-edges (and arbitrarily many non-ε
edges): layer `d` of the ε-depth computation. -/
def depthReach (a : Nfa) (eps : Symbol) : Nat → Finset State
  | 0 => reachableFrom (a.trans.filter (fun t => t.symb ≠ eps)) a.initialstates
  | d + 1 =>
    let R := depthReach a eps d
    reachableFrom (a.trans.filter (fun t => t.symb ≠ eps))
      (R.sort (· ≤ ·) ++ ((a.trans.filter (fun t => t.symb = eps)).filter
        (fun t => t.src ∈ R)).map (fun t => t.tgt))

/-- Modelled from the spec: the ε-depth of an ε-transition — the least `d`
such that its source is reachable with `d` ε-edges; `none` when the source is
unreachable.  A minimal path never needs an ε-edge twice, so searching up to
the number of ε-transitions is exhaustive. -/
def epsDepthOf (a : Nfa) (eps : Symbol) (t : Trans) : Option Nat :=
  (List.range ((a.trans.filter (fun u => u.symb = eps)).length + 1)).find?
    (fun d => t.src ∈ depthReach a eps d)

/-- The distinct ε-depths that actually occur, in ascending order. -/
def presentDepths (a : Nfa) (eps : Symbol) : List Nat :=
  (List.range ((a.trans.filter (fun u => u.symb = eps)).length + 1)).filter
    (fun d => (a.trans.filter (fun u => u.symb = eps)).any
      (fun t => epsDepthOf a eps t = some d))

/-- Modelled from the spec: `epsilon_depths` (spec §4.4) — for each occurring
depth in ascending order, the ε-transitions at that depth in construction
order. -/
def epsilon_depths (a : Nfa) (eps : Symbol) : List (List Trans) :=
  (presentDepths a eps).map (fun d =>
    (a.trans.filter (fun u => u.symb = eps)).filter
      (fun t => epsDepthOf a eps t = some d))

/-- Deduplicating accumulation of a state list (set semantics). -/
def dedupStates (l : List State) : List State := l.foldl (fun acc s => insertState s acc) []

/-- Modelled from the spec: `get_untrimmed_segments` (spec §3, §4.4) — the
ordered segments `S₀,…,S_k` where `k` is the number of distinct ε-depths;
`S₀`'s initial set is the input's, `S_k`'s final set is the input's, the
final set of `Sᵢ` (`i<k`) is the sources of the depth-`i` ε-transitions and
the initial set of `Sᵢ₊₁` the targets; ε-edges are removed; segments are
presented untrimmed (full state space — callers re-pick initial/final
subsets and trim). -/
def untrimmed_segments (a : Nfa) (eps : Symbol) : List Nfa :=
  let buckets := epsilon_depths a eps
  let k := buckets.length
  (List.range (k + 1)).map (fun i =>
    { numStates := a.numStates
      initialstates :=
        if i = 0 then a.initialstates
        else dedupStates ((buckets.getD (i - 1) []).map (fun t => t.tgt))
      finalstates :=
        if i = k then a.finalstates
        else dedupStates ((buckets.getD i []).map (fun t => t.src))
      trans := a.trans.filter (fun t => t.symb ≠ eps) })

/-! ### Noodlification (embedded from src/nfa/noodlify.cc) -/

/-- `get_num_of_permutations` (noodlify.cc:32-40): the product of the number
of ε-transitions over all depths. -/
def get_num_of_permutations (depths : List (List Trans)) : Nat :=
  depths.foldl (fun acc seg => acc * seg.length) 1

/-- The per-index decoding loop of `noodlify` (noodlify.cc:119-125): starting
from `temp = index`, the transition chosen at each depth is entry
`temp % |E_d|` of that depth's list, and `temp` is divided by `|E_d|`. -/
def epsilonNoodle (depths : List (List Trans)) (index : Nat) : List Trans :=
  (depths.foldl
    (fun (p : List Trans × Nat) dl =>
      (p.1 ++ [dl.getD (p.2 % dl.length) (Trans.mk 0 0 0)], p.2 / dl.length))
    ([], index)).1

/-- Memoized segment instances: the first segment restricted to one final
state and trimmed (noodlify.cc:71-80). -/
def segInstFirst (seg : Nfa) (f : State) : Nfa := trim { seg with finalstates := [f] }

/-- Memoized segment instances: the last segment restricted to one initial
state and trimmed (noodlify.cc:81-90). -/
def segInstLast (seg : Nfa) (i : State) : Nfa := trim { seg with initialstates := [i] }

/-- Memoized segment instances: a middle segment restricted to one initial
and one final state and trimmed (noodlify.cc:91-104). -/
def segInstMid (seg : Nfa) (i f : State) : Nfa :=
  trim { seg with initialstates := [i], finalstates := [f] }

/-- `segments_one_initial_final[key] = value` (`std::map` assignment:
overwrite semantics, unique keys). -/
def memoUpsert (m : List ((State × State) × Nfa)) (k : State × State) (v : Nfa) :
    List ((State × State) × Nfa) :=
  m.filter (fun e => e.1 ≠ k) ++ [(k, v)]

/-- `segments_one_initial_final.find(key)`. -/
def memoLookup (m : List ((State × State) × Nfa)) (k : State × State) : Option Nfa :=
  (m.find? (fun e => e.1 = k)).map (fun e => e.2)

/-- Memo entries contributed by the first segment (noodlify.cc:71-80): one
instance per final state, keyed `(unused_state, final)`, kept when non-empty
or `include_empty`. -/
def memoAddFirst (unused : State) (include_empty : Bool) (seg : Nfa)
    (m : List ((State × State) × Nfa)) : List ((State × State) × Nfa) :=
  seg.finalstates.foldl
    (fun m f =>
      let inst := segInstFirst seg f
      if 0 < inst.numStates || include_empty then memoUpsert m (unused, f) inst else m) m

/-- Memo entries contributed by the last segment (noodlify.cc:81-90): one
instance per initial state, keyed `(initial, unused_state)`. -/
def memoAddLast (unused : State) (include_empty : Bool) (seg : Nfa)
    (m : List ((State × State) × Nfa)) : List ((State × State) × Nfa) :=
  seg.initialstates.foldl
    (fun m i =>
      let inst := segInstLast seg i
      if 0 < inst.numStates || include_empty then memoUpsert m (i, unused) inst else m) m

/-- Memo entries contributed by a middle segment (noodlify.cc:91-104): one
instance per initial/final pair. -/
def memoAddMid (include_empty : Bool) (seg : Nfa)
    (m : List ((State × State) × Nfa)) : List ((State × State) × Nfa) :=
  seg.initialstates.foldl
    (fun m i =>
      seg.finalstates.foldl
        (fun m f =>
          let inst := segInstMid seg i f
          if 0 < inst.numStates || include_empty then memoUpsert m (i, f) inst else m) m) m

/-- The memo `segments_one_initial_final` built over all segments in order
(noodlify.cc:67-105). -/
def buildMemo (segments : List Nfa) (unused : State) (include_empty : Bool) :
    List ((State × State) × Nfa) :=
  (List.range segments.length).foldl
    (fun m i =>
      let seg := segments.getD i default
      if i = 0 then memoAddFirst unused include_empty seg m
      else if i + 1 = segments.length then memoAddLast unused include_empty seg m
      else memoAddMid include_empty seg m) []

/-- Middle and last lookups of one assignment (noodlify.cc:138-159): for each
consecutive pair of chosen ε-transitions the segment keyed by
`(previous.tgt, next.src)`, and finally the segment keyed by
`(last.tgt, unused_state)`; `none` when any memo entry is missing (the
assignment is skipped). -/
def middleAndLast (m : List ((State × State) × Nfa)) (unused : State) :
    List Trans → Option (List Nfa)
  | [] => none
  | [e] => (memoLookup m (e.tgt, unused)).map (fun seg => [seg])
  | e1 :: e2 :: rest =>
    (memoLookup m (e1.tgt, e2.src)).bind (fun seg =>
      (middleAndLast m unused (e2 :: rest)).map (fun tail => seg :: tail))

/-- One assignment's noodle (noodlify.cc:127-161): the first segment keyed by
`(unused_state, first.src)`, then the middle and last segments; `none` when a
required memoized segment is missing. -/
def noodleOfAssignment (m : List ((State × State) × Nfa)) (unused : State)
    (en : List Trans) : Option (List Nfa) :=
  match en with
  | [] => none
  | e0 :: _ =>
    (memoLookup m (unused, e0.src)).bind (fun first =>
      (middleAndLast m unused en).map (fun rest => first :: rest))

/-- `SegNfa::noodlify` (noodlify.cc:44-164): segment the automaton along ε;
a single segment yields its trimmed copy (kept when non-empty or
`include_empty`); otherwise enumerate every combination of one ε-transition
per depth by mixed-radix decoding of an index, skip combinations with a
missing memoized segment, and emit the noodles in index order. -/
def noodlify (aut : Nfa) (epsilon : Symbol) (include_empty : Bool) : List (List Nfa) :=
  let segments := untrimmed_segments aut epsilon
  if segments.length = 1 then
    let segment := trim (segments.headD default)
    if 0 < segment.numStates || include_empty then [[segment]] else []
  else
    let unused := aut.get_num_of_states
    let memo := buildMemo segments unused include_empty
    let depths := epsilon_depths aut epsilon
    (List.range (get_num_of_permutations depths)).filterMap (fun index =>
      noodleOfAssignment memo unused (epsilonNoodle depths index))

/-- The mixed-radix weight of depth `d`: the product of the number of
ε-transitions at all earlier depths (the divisor accumulated by the decoding
loop before it reaches depth `d`). -/
def radixWeight (depths : List (List Trans)) (d : Nat) : Nat :=
  ((depths.take d).map (fun l => l.length)).prod

/-! ### `noodlify_for_equation` (embedded from noodlify.cc:166-257)

The C++ overloads mutate the left automata in place (through
`reference_wrapper` / pointers); the embedding makes that explicit by
returning the post-call left sequence together with the noodle sequence. -/

/-- A keyed map of string parameters (`StringDict`). -/
abbrev StringDict := List (String × String)

/-- Unify initial then final states of one left automaton
(noodlify.cc:172-173 and 222-223). -/
def unifyBoth (a : Nfa) : Nfa := unify_final (unify_initial a)

/-- The optional reductions of the product (noodlify.cc:194-204, identically
246-255), dispatched over the `reduce`/`revert` operations: `"forward"` and
`"bidirectional"` apply `reduce`; `"backward"` and `"bidirectional"` then
apply `revert ∘ reduce ∘ revert`; any other value, or an absent key, leaves
the automaton unchanged.  (The pointer overload reads the key into a string
defaulted to `""` and guards on non-emptiness; an empty or unrecognized value
takes the same no-reduction path in both overloads.) -/
def reduceByParams (reduceFn revertFn : Nfa → Nfa) (params : StringDict) (p : Nfa) : Nfa :=
  let rv := (params.lookup "reduce").getD ""
  let p1 := if rv = "forward" || rv = "bidirectional" then reduceFn p else p
  if rv = "backward" || rv = "bidirectional" then revertFn (reduceFn (revertFn p1)) else p1

/-- The ε symbol of the equation (noodlify.cc:178-180): a fresh value from
the alphabet of all left automata and the right automaton. -/
def equationEpsilon (left : List Nfa) (right : Nfa) : Symbol :=
  alphabetNextValue (left ++ [right])

/-- The left side concatenated over ε (noodlify.cc:182-187). -/
def equationConcat (l0 : Nfa) (rest : List Nfa) (epsilon : Symbol) : Nfa :=
  rest.foldl (fun acc b => concatenate_over_epsilon acc b epsilon) l0

/-- The trimmed ε-preserving product of the concatenated left side with the
right automaton (noodlify.cc:189-190). -/
def equationProduct (l0 : Nfa) (rest : List Nfa) (right : Nfa) (epsilon : Symbol) : Nfa :=
  trim (intersection_over_epsilon (equationConcat l0 rest epsilon) right epsilon)

/-- The shared tail of both overloads (noodlify.cc:176-205 and 228-256),
applied to the left sequence after each overload's own preprocessing: fail
fast on an empty left side or an empty-language right side, build the trimmed
ε-preserving product, fail fast when its language is empty, reduce it as the
parameters ask, and noodlify. -/
def noodlifyForEquationCore (left2 : List Nfa) (right : Nfa) (include_empty : Bool)
    (params : StringDict) : List (List Nfa) :=
  match left2 with
  | [] => []
  | l0 :: rest =>
    if is_lang_empty right then [] else
    let epsilon := equationEpsilon (l0 :: rest) right
    let product := equationProduct l0 rest right epsilon
    if is_lang_empty product then [] else
    noodlify (reduceByParams reduce revert params product) epsilon include_empty

/-- `SegNfa::noodlify_for_equation`, `AutRefSequence` overload
(noodlify.cc:166-206): every left automaton is unified (initial states, then
final states) in place before anything else — also on the early-return paths
— and the shared pipeline runs on the unified sequence.  The first component
is the left sequence as the caller observes it after the call. -/
def noodlify_for_equation_refs (left : List Nfa) (right : Nfa) (include_empty : Bool)
    (params : StringDict) : List Nfa × List (List Nfa) :=
  let left2 := left.map unifyBoth
  (left2, noodlifyForEquationCore left2 right include_empty params)

/-- Recognized values of the `reduce` parameter (noodlify.cc:219). -/
def reduceParamRecognized (params : StringDict) : Bool :=
  let rv := (params.lookup "reduce").getD ""
  rv = "forward" || rv = "backward" || rv = "bidirectional"

/-- `SegNfa::noodlify_for_equation`, `AutPtrSequence` overload
(noodlify.cc:208-257): the left automata are unified only when the `reduce`
parameter holds one of the recognized values (noodlify.cc:213-226); the
shared pipeline then runs.  The first component is the left sequence as the
caller observes it after the call. -/
def noodlify_for_equation_ptrs (left : List Nfa) (right : Nfa) (include_empty : Bool)
    (params : StringDict) : List Nfa × List (List Nfa) :=
  let left2 := if reduceParamRecognized params then left.map unifyBoth else left
  (left2, noodlifyForEquationCore left2 right include_empty params)

/-- The product automaton the pipeline tests for emptiness, as a function of
the original call arguments (empty placeholder for an empty left side). -/
def equationProductOf (left : List Nfa) (right : Nfa) : Nfa :=
  match left.map unifyBoth with
  | [] => default
  | l0 :: rest => equationProduct l0 rest right (equationEpsilon (l0 :: rest) right)

/-! ### Regex-to-NFA compiler (embedded from src/re2parser.cc)

The compiler input is a compiled RE2 program.  RE2 itself is an external
third-party library; a program is modelled per the spec (§4.6): instructions
with opcode in `{ByteRange, Match, Nop, Capture, EmptyWidth}`, an `out`
target, a `last` flag, `lo`/`hi` byte-range bounds and an empty-width flag
mask.  The empty-width mask bits are the six public RE2 `EmptyOp` constants
in their header order. -/

/-- Instruction opcodes (spec §4.6; names as in RE2's `prog.h`). -/
inductive Opcode
  | kInstByteRange
  | kInstMatch
  | kInstNop
  | kInstCapture
  | kInstEmptyWidth
deriving DecidableEq

/-- One program instruction (spec §4.6). -/
structure Inst where
  opcode : Opcode
  out : Nat
  last : Bool
  lo : Nat
  hi : Nat
  emptyFlags : Nat
deriving DecidableEq

instance : Inhabited Inst := ⟨⟨Opcode.kInstByteRange, 0, true, 1, 0, 0⟩⟩

/-- A compiled program: instruction array and start pc (spec §4.6). -/
structure Prog where
  insts : List Inst
  start : Nat
deriving DecidableEq

/-- `prog->size()`. -/
def Prog.size (p : Prog) : Nat := p.insts.length

/-- `prog->inst(i)`. -/
def Prog.inst (p : Prog) (i : Nat) : Inst := p.insts.getD i default

/-- The reserved empty-width assertion symbols pushed by the `kInstEmptyWidth`
case (re2parser.cc:142-173), in the source's test order: `^`→300 (bit 0,
`kEmptyBeginLine`), `$`→10 (bit 1, `kEmptyEndLine`), `\A`→301 (bit 2,
`kEmptyBeginText`), `\z`→302 (bit 3, `kEmptyEndText`), `\b`→303 (bit 4,
`kEmptyWordBoundary`), `\B`→304 (bit 5, `kEmptyNonWordBoundary`). -/
def emptyWidthSymbols (flags : Nat) : List Symbol :=
  (if flags.testBit 0 then [300] else []) ++
  (if flags.testBit 1 then [10] else []) ++
  (if flags.testBit 2 then [301] else []) ++
  (if flags.testBit 3 then [302] else []) ++
  (if flags.testBit 4 then [303] else []) ++
  (if flags.testBit 5 then [304] else [])

/-- The reserved symbol for empty-width flag bit `b`. -/
def emptyWidthSymbolOfBit (b : Nat) : Symbol :=
  [300, 10, 301, 302, 303, 304].getD b 0

/-- The symbols of a byte range: `[lo, hi]` inclusive, empty when `lo > hi`
(re2parser.cc:177-182). -/
def symbolsRange (lo hi : Nat) : List Symbol :=
  (List.range (hi + 1 - lo)).map (fun k => k + lo)

/-- The state cache (re2parser.cc:40-46), as total functions over state
numbers. -/
structure StateCache where
  state_mapping : Nat → List Nat
  is_final_state : Nat → Bool
  is_state_nop_or_cap : Nat → Bool
  is_last : Nat → Bool
  has_state_incoming_edge : Nat → Bool

/-- `create_state_cache_with_epsilon` (re2parser.cc:351-373): every state
maps to itself, every state counts as having an incoming edge, `is_last` and
`is_final_state` are read off the instructions. -/
def create_state_cache_with_epsilon (prog : Prog) : StateCache :=
  { state_mapping := fun s => [s]
    is_final_state := fun s => decide (s < prog.size) && decide ((prog.inst s).opcode = Opcode.kInstMatch)
    is_state_nop_or_cap := fun _ => false
    is_last := fun s => decide (s < prog.size) && (prog.inst s).last
    has_state_incoming_edge := fun _ => true }

/-- One worklist round of `get_mapped_states` (re2parser.cc:448-486), as a
fuel-bounded recursion; the worklist is a stack with its top at the list
head.  (The source's writes to the `is_last` cache inside this function
store the same values the enclosing cache-construction loop stores and are
omitted.)  The fuel below every call exceeds the number of rounds the
source's loop can make, so the recursion always runs to completion. -/
def gmsGo (prog : Prog) : Nat → List Nat → Finset Nat → List Nat → List Nat
  | 0, _, _, mapped => mapped
  | _ + 1, [], _, mapped => mapped
  | fuel + 1, s :: rest, checked, mapped =>
    let inst := prog.inst s
    let checked2 := insert s checked
    if inst.last = true ∧ inst.opcode ≠ Opcode.kInstCapture ∧ inst.opcode ≠ Opcode.kInstNop then
      gmsGo prog fuel rest checked2 (mapped ++ [s])
    else
      let rest1 :=
        if inst.last = true then rest
        else if s + 1 ∈ checked2 then rest else (s + 1) :: rest
      let outInst := prog.inst inst.out
      if outInst.opcode = Opcode.kInstCapture ∨ outInst.opcode = Opcode.kInstNop then
        gmsGo prog fuel (if inst.out ∈ checked2 then rest1 else inst.out :: rest1) checked2 mapped
      else
        gmsGo prog fuel rest1 checked2 (mapped ++ [inst.out])

/-- `get_mapped_states` (re2parser.cc:448-486): the terminal (non-Nop/Capture)
states reachable from `state0` along `last`-implicit and Nop/Capture ε-edges. -/
def get_mapped_states (prog : Prog) (state0 : Nat) : List Nat :=
  gmsGo prog (2 ^ (2 * prog.size + 2)) [state0] ∅ []

/-- The mutable state of `create_state_cache_without_epsilon`
(re2parser.cc:286-344): the cache under construction, `tmp_state_mapping`,
and `append_to_state` (`-1` as `none`). -/
structure CacheBuild where
  cache : StateCache
  tmp : Nat → Nat
  appendTo : Option Nat

/-- The `is_last` write at the head of each cache-construction iteration
(re2parser.cc:315-317). -/
def cacheMarkLast (prog : Prog) (cb : CacheBuild) (s : Nat) : CacheBuild :=
  if (prog.inst s).last then
    { cb with cache := { cb.cache with is_last := Function.update cb.cache.is_last s true } }
  else cb

/-- The Nop/Capture branch of the cache-construction loop
(re2parser.cc:318-334). -/
def cacheNopCap (prog : Prog) (cb : CacheBuild) (s : Nat) : CacheBuild :=
  let mapped := get_mapped_states prog s
  let cache1 :=
    { cb.cache with
      state_mapping := Function.update cb.cache.state_mapping s mapped
      is_state_nop_or_cap := Function.update cb.cache.is_state_nop_or_cap s true }
  let mapped_parget := cb.tmp ((prog.inst s).out)
  let tmp1 := Function.update cb.tmp s mapped_parget
  match cb.appendTo with
  | some a =>
    let cache2 :=
      if cache1.has_state_incoming_edge s then
        { cache1 with has_state_incoming_edge :=
            Function.update cache1.has_state_incoming_edge mapped_parget true }
      else cache1
    { cache := cache2, tmp := Function.update tmp1 a mapped_parget, appendTo := some a }
  | none => { cache := cache1, tmp := tmp1, appendTo := some s }

/-- One iteration of the cache-construction loop without ε
(re2parser.cc:314-343). -/
def cacheStepNoEps (prog : Prog) (cb : CacheBuild) (s : Nat) : CacheBuild :=
  let inst := prog.inst s
  let cb := cacheMarkLast prog cb s
  if inst.opcode = Opcode.kInstCapture ∨ inst.opcode = Opcode.kInstNop then
    cacheNopCap prog cb s
  else if inst.opcode = Opcode.kInstMatch then
    { cb with
      cache := { cb.cache with is_final_state := Function.update cb.cache.is_final_state s true },
      appendTo := none }
  else
    { cb with
      cache := { cb.cache with has_state_incoming_edge :=
          (Function.update cb.cache.has_state_incoming_edge inst.out true) },
      appendTo := none }

/-- `create_state_cache_without_epsilon` (re2parser.cc:286-344). -/
def create_state_cache_without_epsilon (prog : Prog) : StateCache :=
  let cb0 : CacheBuild :=
    { cache :=
      { state_mapping := fun s => [s]
        is_final_state := fun _ => false
        is_state_nop_or_cap := fun _ => false
        is_last := fun _ => false
        has_state_incoming_edge := fun _ => false }
      tmp := fun s => s
      appendTo := none }
  ((List.range' prog.start (prog.size - prog.start)).foldl (cacheStepNoEps prog) cb0).cache

/-- `create_state_cache` (re2parser.cc:272-278). -/
def create_state_cache (prog : Prog) (use_epsilon : Bool) : StateCache :=
  if use_epsilon then create_state_cache_with_epsilon prog
  else create_state_cache_without_epsilon prog

/-- The initial state of the explicit NFA: `state_mapping[prog->start()][0]`
(re2parser.cc:94-99). -/
def convertM0 (prog : Prog) (use_epsilon : Bool) : Nat :=
  ((create_state_cache prog use_epsilon).state_mapping prog.start).headD 0

/-- A concrete two-instruction compiled program (the byte `a` then `Match`),
used to instantiate well-formedness hypotheses. -/
def progC5 : Prog :=
  { insts := [⟨Opcode.kInstByteRange, 1, false, 97, 97, 0⟩, ⟨Opcode.kInstMatch, 0, true, 0, 0, 0⟩]
    start := 0 }

/-- The mutable state threaded through `convert_pro_to_nfa`
(re2parser.cc:88-227): the NFA under construction, the ε-closure copy queue,
the saved outgoing edges, and `has_state_incoming_edge` (which the
conversion keeps updating). -/
structure ConvertSt where
  nfa : Nfa
  copyEdgesFromTo : List (Nat × Nat)
  outgoingEdges : Nat → List (Symbol × Nat)
  incoming : Nat → Bool

/-- `create_explicit_nfa_transitions` (re2parser.cc:240-264): transitions
from every mapped source to every mapped target on every symbol, emitted only
from sources with an incoming edge (which then marks the target); without ε
each candidate edge is also saved into `outgoingEdges`; with ε a `last`-less
instruction additionally gets the implicit ε-edge to `pc+1`. -/
def ceStep (use_epsilon : Bool) (mappedState mappedTarget : Nat)
    (st : ConvertSt) (symbol : Symbol) : ConvertSt :=
  let st :=
    if use_epsilon then st
    else { st with outgoingEdges :=
        (Function.update st.outgoingEdges mappedState
          (st.outgoingEdges mappedState ++ [(symbol, mappedTarget)])) }
  if st.incoming mappedState then
    { st with
      incoming := Function.update st.incoming mappedTarget true,
      nfa := st.nfa.add_trans mappedState symbol mappedTarget }
  else st

/-- The body of `create_explicit_nfa_transitions` without the trailing
implicit-ε handling: the three nested loops over mapped sources, mapped
targets and symbols. -/
def ceLoops (mapping : Nat → List Nat) (use_epsilon : Bool) (cur : Nat) (inst : Inst)
    (symbols : List Symbol) (st : ConvertSt) : ConvertSt :=
  (mapping cur).foldl
    (fun st mappedState =>
      (mapping inst.out).foldl
        (fun st mappedTarget => symbols.foldl (ceStep use_epsilon mappedState mappedTarget) st)
        st) st

def createExplicitTransitions (mapping : Nat → List Nat) (use_epsilon : Bool)
    (epsilon_value : Symbol) (cur : Nat) (inst : Inst) (isLastCur : Bool)
    (symbols : List Symbol) (st : ConvertSt) : ConvertSt :=
  let st1 := ceLoops mapping use_epsilon cur inst symbols st
  if use_epsilon then
    if isLastCur then st1
    else { st1 with nfa := st1.nfa.add_trans cur epsilon_value (cur + 1) }
  else st1

/-- `make_state_final` (re2parser.cc:380-388): make every mapped state with
an incoming edge final. -/
def makeStateFinal (mapping : Nat → List Nat) (s : Nat) (st : ConvertSt) : ConvertSt :=
  (mapping s).foldl
    (fun st target =>
      if st.incoming target then { st with nfa := st.nfa.make_final target } else st) st

/-- The special copy edges for a Nop/Capture start state
(re2parser.cc:104-113). -/
def startCopyEdges (prog : Prog) (cache : StateCache) : List (Nat × Nat) :=
  if cache.is_state_nop_or_cap prog.start ∧ ¬ (cache.is_last prog.start = true) then
    (((cache.state_mapping prog.start).drop 1).map
      (fun idxState => (cache.state_mapping idxState).map
        (fun st2 => (st2, (cache.state_mapping prog.start).headD 0)))).flatten
  else []

/-- One iteration of the state-traversal loop of `convert_pro_to_nfa`
(re2parser.cc:118-197). -/
def convertStep (prog : Prog) (cache : StateCache) (use_epsilon : Bool)
    (epsilon_value : Symbol) (st : ConvertSt) (cur : Nat) : ConvertSt :=
  let inst := prog.inst cur
  let st1 := if cache.is_final_state cur then makeStateFinal cache.state_mapping cur st else st
  match inst.opcode with
  | Opcode.kInstMatch => st1
  | Opcode.kInstNop | Opcode.kInstCapture =>
    if use_epsilon then
      createExplicitTransitions cache.state_mapping true epsilon_value cur inst
        (cache.is_last cur) [epsilon_value] st1
    else st1
  | Opcode.kInstEmptyWidth =>
    let symbols0 := emptyWidthSymbols inst.emptyFlags
    let symbols := if symbols0 = [] then symbolsRange inst.lo inst.hi else symbols0
    let st2 := createExplicitTransitions cache.state_mapping use_epsilon epsilon_value cur inst
      (cache.is_last cur) symbols st1
    if use_epsilon then st2
    else if cache.is_last cur then st2
    else { st2 with copyEdgesFromTo :=
        st2.copyEdgesFromTo ++ (cache.state_mapping (cur + 1)).map (fun x => (x, cur)) }
  | Opcode.kInstByteRange =>
    let symbols := symbolsRange inst.lo inst.hi
    let st2 := createExplicitTransitions cache.state_mapping use_epsilon epsilon_value cur inst
      (cache.is_last cur) symbols st1
    if use_epsilon then st2
    else if cache.is_last cur then st2
    else { st2 with copyEdgesFromTo :=
        st2.copyEdgesFromTo ++ (cache.state_mapping (cur + 1)).map (fun x => (x, cur)) }

/-- One iteration of the reversed ε-closure back-propagation loop
(re2parser.cc:202-224), threading the conversion state and the mutable
`is_final_state` cache.  The source iterates `outgoingEdges[from]` by
reference while possibly appending to `outgoingEdges[to]`; the iterated list
is read once up front. -/
def backPropStep (prog : Prog) (mapping : Nat → List Nat)
    (p : ConvertSt × (Nat → Bool)) (edge : Nat × Nat) : ConvertSt × (Nat → Bool) :=
  let fromS := edge.1
  let toS := edge.2
  let inst := prog.inst fromS
  if inst.opcode = Opcode.kInstMatch then
    (makeStateFinal mapping toS p.1, Function.update p.2 toS true)
  else
    let p1 :=
      if p.2 fromS then (makeStateFinal mapping toS p.1, Function.update p.2 toS true)
      else p
    let st2 := (p1.1.outgoingEdges fromS).foldl
      (fun st tr =>
        let st :=
          if st.incoming toS then { st with nfa := st.nfa.add_trans toS tr.1 tr.2 } else st
        { st with outgoingEdges :=
            Function.update st.outgoingEdges toS (st.outgoingEdges toS ++ [tr]) })
      p1.1
    (st2, p1.2)

/-- The conversion state right before renumbering (re2parser.cc:88-225): the
initial state is `state_mapping[start][0]` and is marked as having an
incoming edge, the main loop runs over `[start, prog_size)`, and without ε
the queued copy edges are processed in reverse. -/
def explicitNfaOf (prog : Prog) (use_epsilon : Bool) (epsilon_value : Symbol) : ConvertSt :=
  let cache := create_state_cache prog use_epsilon
  let m0 := (cache.state_mapping prog.start).headD 0
  let st0 : ConvertSt :=
    { nfa := (Nfa.mk prog.size [] [] []).make_initial m0
      copyEdgesFromTo := startCopyEdges prog cache
      outgoingEdges := fun _ => []
      incoming := Function.update cache.has_state_incoming_edge m0 true }
  let st1 := (List.range' prog.start (prog.size - prog.start)).foldl
    (convertStep prog cache use_epsilon epsilon_value) st0
  if use_epsilon then st1
  else (st1.copyEdgesFromTo.reverse.foldl (backPropStep prog cache.state_mapping)
    (st1, cache.is_final_state)).1

/-! #### `renumber_states` (re2parser.cc:396-439) -/

/-- `input_nfa.get_transitions_from_state(state)`: the outgoing transitions
of one state.  (The source returns them grouped by symbol; only the set of
transitions matters downstream, and we keep the flat transition-list order.) -/
def transitions_from_state (a : Nfa) (s : State) : List Trans :=
  a.trans.filter (fun t => t.src = s)

/-- The renumbering state: the output NFA and the `renumbered_states` array
(`-1`, i.e. unassigned, as `none`). -/
structure RenumberSt where
  out : Nfa
  ren : Nat → Option Nat

/-- Reading `renumbered_states[s]` as the source does: an unassigned entry
reads back as `(unsigned long)(-1)`. -/
def renumberValue (r : Nat → Option Nat) (s : Nat) : Nat := (r s).getD (2 ^ 64 - 1)

/-- Ascending iteration order of a state set (the source's initial/final
state sets are ordered vectors). -/
def sortStates (l : List State) : List State := l.mergeSort (fun a b => a ≤ b)

/-- Loop 1 of `renumber_states` (re2parser.cc:401-410): allocate an output
state for every input state with a non-empty transition list. -/
def renumberLoop1 (input : Nfa) (sz : Nat) (st : RenumberSt) : RenumberSt :=
  (List.range sz).foldl
    (fun st s =>
      if transitions_from_state input s = [] then st
      else
        let p := st.out.add_new_state
        { out := p.2, ren := Function.update st.ren s (some p.1) }) st

/-- `if ((int)renumbered_states[x] == -1) renumbered_states[x] = add_new_state();`
(re2parser.cc:413-415 and 423-425): allocate an output state for `x` when it
has none yet. -/
def renumberAssign (st : RenumberSt) (x : Nat) : RenumberSt :=
  match st.ren x with
  | none =>
    let p := st.out.add_new_state
    { out := p.2, ren := Function.update st.ren x (some p.1) }
  | some _ => st

/-- Loop 2 of `renumber_states` (re2parser.cc:412-417): allocate (if needed)
and mark the final states. -/
def renumberLoop2 (input : Nfa) (st : RenumberSt) : RenumberSt :=
  (sortStates input.finalstates).foldl
    (fun st s =>
      let st1 := renumberAssign st s
      { st1 with out := st1.out.make_final (renumberValue st1.ren s) }) st

/-- Loop 3 of `renumber_states` (re2parser.cc:419-432): copy every transition,
allocating target states on demand. -/
def renumberLoop3 (input : Nfa) (sz : Nat) (st : RenumberSt) : RenumberSt :=
  (List.range sz).foldl
    (fun st s =>
      (transitions_from_state input s).foldl
        (fun st t =>
          let st1 := renumberAssign st t.tgt
          { st1 with out := st1.out.add_trans (renumberValue st1.ren s) t.symb (renumberValue st1.ren t.tgt) }) st) st

/-- `renumber_states` (re2parser.cc:396-439): compact the used states of the
explicit NFA into `[0, n')`, then mark finals, copy transitions and mark
initials through the renumbering array. -/
def renumber_states (program_size : Nat) (input : Nfa) : Nfa :=
  let st0 : RenumberSt := { out := Nfa.mk 0 [] [] [], ren := fun _ => none }
  let st1 := renumberLoop1 input program_size st0
  let st2 := renumberLoop2 input st1
  let st3 := renumberLoop3 input program_size st2
  (sortStates input.initialstates).foldl
    (fun n s => n.make_initial (renumberValue st3.ren s)) st3.out

/-- `convert_pro_to_nfa` (re2parser.cc:88-227): build the explicit NFA and
renumber its used states. -/
def convert_pro_to_nfa (prog : Prog) (use_epsilon : Bool) (epsilon_value : Symbol) : Nfa :=
  renumber_states prog.size (explicitNfaOf prog use_epsilon epsilon_value).nfa

/-- `Mata::RE2Parser::create_nfa` (re2parser.cc:497-509) at the program
level: parsing and `CompileToProg` live in the external RE2 library, so the
embedding takes the compiled program as input. -/
def create_nfa (prog : Prog) (use_epsilon : Bool) (epsilon_value : Symbol) : Nfa :=
  convert_pro_to_nfa prog use_epsilon epsilon_value

/-- The dense-state invariant (spec §3): every state occurring in the initial
set, the final set, or as a transition endpoint is strictly below the state
count. -/
def NfaDense (a : Nfa) : Prop :=
  (∀ s ∈ a.initialstates, s < a.numStates) ∧
  (∀ s ∈ a.finalstates, s < a.numStates) ∧
  (∀ t ∈ a.trans, t.src < a.numStates ∧ t.tgt < a.numStates)

/-- Modelled from the RE2 contract (external library): well-formedness of a
compiled program as this compiler relies on it.  `out` targets and the
implicit `pc+1` successors of non-`last` instructions stay inside
`[start, size)`; byte ranges are non-empty; empty-width instructions carry at
least one of the six assertion bits and no others; and the Nop/Capture
ε-graph is acyclic, witnessed by a measure decreasing along the `out` edges
of Nop/Capture instructions. -/
structure ProgWF (p : Prog) : Prop where
  size_pos : 0 < p.size
  start_lt : p.start < p.size
  out_ge : ∀ i, i < p.size → p.start ≤ (p.inst i).out
  out_lt : ∀ i, i < p.size → (p.inst i).out < p.size
  start_le : ∀ i, p.start ≤ i → i < p.size → (p.inst i).last = false → i + 1 < p.size
  byte_le : ∀ i, i < p.size → (p.inst i).opcode = Opcode.kInstByteRange →
    (p.inst i).lo ≤ (p.inst i).hi
  empty_ne : ∀ i, i < p.size → (p.inst i).opcode = Opcode.kInstEmptyWidth →
    (p.inst i).emptyFlags ≠ 0 ∧ (p.inst i).emptyFlags < 64
  acyclic : ∃ nu : Nat → Nat, (∀ i, nu i < p.size) ∧
    ∀ i, i < p.size →
      ((p.inst i).opcode = Opcode.kInstCapture ∨ (p.inst i).opcode = Opcode.kInstNop) →
      nu ((p.inst i).out) < nu i

/-- The combined monotone footprint of converter-state steps: transitions and
finals only grow, initials stay put, and `incoming` flags are only ever set. -/
def ConvertLe (st st2 : ConvertSt) : Prop :=
  (∀ x ∈ st.nfa.trans, x ∈ st2.nfa.trans) ∧
  (∀ x ∈ st.nfa.finalstates, x ∈ st2.nfa.finalstates) ∧
  st2.nfa.initialstates = st.nfa.initialstates ∧
  (∀ x, st.incoming x = true → st2.incoming x = true)

/-- Invariant carried through the renumbering loops: every assigned output id
is below the output's state count, and the output NFA built so far is dense. -/
def RenumberInv (st : RenumberSt) : Prop :=
  (∀ s v, st.ren s = some v → v < st.out.numStates) ∧
  (∀ x ∈ st.out.initialstates, x < st.out.numStates) ∧
  (∀ x ∈ st.out.finalstates, x < st.out.numStates) ∧
  (∀ t ∈ st.out.trans, t.src < st.out.numStates ∧ t.tgt < st.out.numStates)

/-! ## Theorems -/

/-- A property preserved by every fold step holds after the fold. -/
theorem foldlPreserve {α σ : Type _} (f : σ → α → σ) (P : σ → Prop)
    (h : ∀ s a, P s → P (f s a)) : ∀ (l : List α) (s : σ), P s → P (l.foldl f s) := by
  intro l
  induction l with
  | nil => exact fun s hs => hs
  | cons a l ih => exact fun s hs => ih (f s a) (h s a hs)

/-- A property established when the fold processes a given element, and
preserved afterwards, holds after the fold (with `Q` an auxiliary invariant
available at establishment time). -/
theorem foldlEstablish {α σ : Type _} (f : σ → α → σ) (P Q : σ → Prop)
    (hQ : ∀ s a, Q s → Q (f s a)) (hP : ∀ s a, P s → P (f s a))
    (a0 : α) (hest : ∀ s, Q s → P (f s a0)) :
    ∀ (l : List α) (s : σ), a0 ∈ l → Q s → P (l.foldl f s) := by
  intro l
  induction l with
  | nil => intro s hmem; exact absurd hmem (List.not_mem_nil a0)
  | cons a l ih =>
    intro s hmem hq
    rcases List.mem_cons.mp hmem with heq | hmem'
    · subst heq
      exact foldlPreserve f P hP l (f s a0) (hest s hq)
    · exact ih (f s a) hmem' (hQ s a hq)

theorem mem_stepSet {ts : List Trans} {S : Finset State} {x : State} :
    x ∈ stepSet ts S ↔ x ∈ S ∨ ∃ t ∈ ts, t.src ∈ S ∧ t.tgt = x := by
  simp [stepSet, List.mem_filter]
  tauto

theorem subset_stepSet (ts : List Trans) (S : Finset State) : S ⊆ stepSet ts S :=
  fun _ hx => mem_stepSet.mpr (Or.inl hx)

theorem iterate_stepSet_increasing (ts : List Trans) (S : Finset State) (k : Nat) :
    (stepSet ts)^[k] S ⊆ (stepSet ts)^[k + 1] S := by
  rw [Function.iterate_succ_apply']
  exact subset_stepSet ts ((stepSet ts)^[k] S)

theorem subset_iterate_stepSet (ts : List Trans) (S : Finset State) (k : Nat) :
    S ⊆ (stepSet ts)^[k] S := by
  induction k with
  | zero => simp
  | succ k ih => exact subset_trans ih (iterate_stepSet_increasing ts S k)

theorem iterate_stepSet_subset_universe (ts : List Trans) (init : List State) (k : Nat) :
    (stepSet ts)^[k] init.toFinset ⊆
      init.toFinset ∪ (ts.map (fun t => t.tgt)).toFinset := by
  induction k with
  | zero => exact Finset.subset_union_left
  | succ k ih =>
    rw [Function.iterate_succ_apply']
    intro x hx
    rcases mem_stepSet.mp hx with hx | ⟨t, ht, _, rfl⟩
    · exact ih hx
    · exact Finset.mem_union_right _ (List.mem_toFinset.mpr (List.mem_map_of_mem _ ht))

theorem stepSet_reachableFrom_eq (ts : List Trans) (init : List State) :
    stepSet ts (reachableFrom ts init) = reachableFrom ts init := by
  classical
  set f := stepSet ts with hf
  set S0 := init.toFinset with hS0
  set U := init.toFinset ∪ (ts.map (fun t => t.tgt)).toFinset with hU
  have hsub : ∀ k, f^[k] S0 ⊆ U := fun k => iterate_stepSet_subset_universe ts init k
  have hNbound : U.card + 1 ≤ reachBound ts init := by
    have h1 : U.card ≤ init.toFinset.card + (ts.map (fun t => t.tgt)).toFinset.card :=
      Finset.card_union_le _ _
    have h2 : init.toFinset.card ≤ init.length := init.toFinset_card_le
    have h3 : (ts.map (fun t => t.tgt)).toFinset.card ≤ ts.length := by
      have := (ts.map (fun t => t.tgt)).toFinset_card_le
      simpa using this
    have := le_trans h1 (Nat.add_le_add h2 h3)
    simp only [reachBound]
    omega
  have hfix : ∃ j, j ≤ U.card ∧ f^[j + 1] S0 = f^[j] S0 := by
    by_contra hcon
    push_neg at hcon
    have grow : ∀ k, k ≤ U.card + 1 → k ≤ (f^[k] S0).card := by
      intro k
      induction k with
      | zero => intro _; exact Nat.zero_le _
      | succ k ih =>
        intro hk
        have hk' : k ≤ U.card := by omega
        have hlt : (f^[k] S0).card < (f^[k + 1] S0).card := by
          apply Finset.card_lt_card
          rw [Finset.ssubset_iff_subset_ne]
          exact ⟨iterate_stepSet_increasing ts S0 k, fun h => hcon k hk' h.symm⟩
        have := ih (by omega)
        omega
    have h1 := grow (U.card + 1) le_rfl
    have h2 : (f^[U.card + 1] S0).card ≤ U.card := Finset.card_le_card (hsub _)
    omega
  rcases hfix with ⟨j, hj, hfixj⟩
  have hstable : ∀ m, j ≤ m → f^[m] S0 = f^[j] S0 := by
    intro m hm
    induction m with
    | zero => cases Nat.le_zero.mp hm; rfl
    | succ m ih =>
      rcases Nat.lt_or_ge j (m + 1) with hlt | hge
      · have hjm : j ≤ m := by omega
        rw [Function.iterate_succ_apply', ih hjm]
        exact (Function.iterate_succ_apply' f j S0).symm.trans hfixj
      · have : j = m + 1 := by omega
        rw [this]
  have hb : reachableFrom ts init = f^[j] S0 := hstable (reachBound ts init) (by omega)
  show f (reachableFrom ts init) = reachableFrom ts init
  rw [hb]
  exact (Function.iterate_succ_apply' f j S0).symm.trans hfixj

theorem mem_reachableFrom {ts : List Trans} {init : List State} {x : State} :
    x ∈ reachableFrom ts init ↔ ∃ i ∈ init, Relation.ReflTransGen (edgeRel ts) i x := by
  constructor
  · have : ∀ k y, y ∈ (stepSet ts)^[k] init.toFinset →
        ∃ i ∈ init, Relation.ReflTransGen (edgeRel ts) i y := by
      intro k
      induction k with
      | zero => intro y hy; exact ⟨y, List.mem_toFinset.mp hy, Relation.ReflTransGen.refl⟩
      | succ k ih =>
        intro y hy
        rw [Function.iterate_succ_apply'] at hy
        rcases mem_stepSet.mp hy with hy | ⟨t, ht, hsrc, rfl⟩
        · exact ih y hy
        · rcases ih t.src hsrc with ⟨i, hi, hrtg⟩
          exact ⟨i, hi, hrtg.tail ⟨t, ht, rfl, rfl⟩⟩
    exact this (reachBound ts init) x
  · rintro ⟨i, hi, hrtg⟩
    induction hrtg with
    | refl =>
      exact subset_iterate_stepSet ts init.toFinset (reachBound ts init)
        (List.mem_toFinset.mpr hi)
    | tail _ he ih =>
      rcases he with ⟨t, ht, hsrc, htgt⟩
      have hmem : t.tgt ∈ stepSet ts (reachableFrom ts init) := by
        refine mem_stepSet.mpr (Or.inr ⟨t, ht, ?_, rfl⟩)
        rw [hsrc]; exact ih
      rw [stepSet_reachableFrom_eq] at hmem
      rwa [htgt] at hmem

theorem pathWord_append {ts : List Trans} {s u v : State} {w : List Symbol} {a : Symbol}
    (hp : PathWord ts s w u) (ht : Trans.mk u a v ∈ ts) : PathWord ts s (w ++ [a]) v := by
  induction hp with
  | nil s => exact PathWord.cons ht (PathWord.nil v)
  | cons h _ ih => exact PathWord.cons h (ih ht)

theorem exists_word_iff_rtg {ts : List Trans} {s u : State} :
    (∃ w, PathWord ts s w u) ↔ Relation.ReflTransGen (edgeRel ts) s u := by
  constructor
  · rintro ⟨w, hp⟩
    induction hp with
    | nil s => exact Relation.ReflTransGen.refl
    | cons h _ ih => exact Relation.ReflTransGen.head ⟨_, h, rfl, rfl⟩ ih
  · intro hrtg
    induction hrtg with
    | refl => exact ⟨[], PathWord.nil s⟩
    | tail _ he ih =>
      rcases ih with ⟨w, hp⟩
      rcases he with ⟨t, ht, hsrc, htgt⟩
      refine ⟨w ++ [t.symb], pathWord_append hp ?_⟩
      have : Trans.mk t.src t.symb t.tgt = t := by cases t; rfl
      rw [hsrc, htgt] at this
      rwa [this]

theorem is_lang_empty_iff {a : Nfa} : is_lang_empty a = true ↔ langEmpty a := by
  unfold is_lang_empty langEmpty accepts
  rw [List.all_eq_true]
  constructor
  · rintro h w ⟨i, hi, f, hf, hp⟩
    have hr : f ∈ reachableFrom a.trans a.initialstates :=
      mem_reachableFrom.mpr ⟨i, hi, exists_word_iff_rtg.mp ⟨w, hp⟩⟩
    have := h f hf
    simp only [Bool.not_eq_true', decide_eq_false_iff_not] at this
    exact this hr
  · intro h f hf
    simp only [Bool.not_eq_true', decide_eq_false_iff_not]
    intro hr
    rcases mem_reachableFrom.mp hr with ⟨i, hi, hrtg⟩
    rcases exists_word_iff_rtg.mpr hrtg with ⟨w, hp⟩
    exact h w ⟨i, hi, f, hf, hp⟩

/-- C6.  Empty input is not an error: whenever the left side is the empty
sequence, or the right automaton's language is empty, or the trimmed
ε-preserving product of the (unified) concatenated left side with the right
automaton has empty language, `noodlify_for_equation` returns the empty
`NoodleSequence`.  (The embedding is a total function, so the call also
raises no error.) -/
theorem noodlify_for_equation_empty_inputs (left : List Nfa) (right : Nfa)
    (include_empty : Bool) (params : StringDict)
    (h : left = [] ∨ langEmpty right ∨ langEmpty (equationProductOf left right)) :
    (noodlify_for_equation_refs left right include_empty params).2 = [] := by
  show noodlifyForEquationCore (left.map unifyBoth) right include_empty params = []
  rcases h with h | h | h
  · subst h; rfl
  · have hb : is_lang_empty right = true := is_lang_empty_iff.mpr h
    cases hl : left.map unifyBoth with
    | nil => rfl
    | cons l0 rest => simp [noodlifyForEquationCore, hb]
  · cases hl : left.map unifyBoth with
    | nil => rfl
    | cons l0 rest =>
      have hpr : equationProductOf left right =
          equationProduct l0 rest right (equationEpsilon (l0 :: rest) right) := by
        simp only [equationProductOf, hl]
      rw [hpr] at h
      have hb2 : is_lang_empty
          (equationProduct l0 rest right (equationEpsilon (l0 :: rest) right)) = true :=
        is_lang_empty_iff.mpr h
      simp [noodlifyForEquationCore, hb2]

/-- Witness for C6 at a concrete input (empty left side). -/
theorem noodlify_for_equation_empty_inputs_witness :
    (([] : List Nfa) = [] ∨ langEmpty (Nfa.mk 1 [0] [0] []) ∨
      langEmpty (equationProductOf [] (Nfa.mk 1 [0] [0] []))) ∧
    (noodlify_for_equation_refs [] (Nfa.mk 1 [0] [0] []) false []).2 = [] :=
  ⟨Or.inl rfl,
   noodlify_for_equation_empty_inputs [] (Nfa.mk 1 [0] [0] []) false [] (Or.inl rfl)⟩

/-- Counterexample to C3 as stated: with `params` containing no `reduce` key,
the pointer-sequence overload does not unify the left automata
(noodlify.cc:213-226 guards the unification on a recognized `reduce` value),
so it is not the case that both overloads return the unified left sequence
for every params value. -/
theorem unify_preprocessing_cex :
    ¬ ((noodlify_for_equation_refs [Nfa.mk 1 [0] [0] []] (Nfa.mk 1 [0] [0] []) false []).1 =
         [unifyBoth (Nfa.mk 1 [0] [0] [])] ∧
       (noodlify_for_equation_ptrs [Nfa.mk 1 [0] [0] []] (Nfa.mk 1 [0] [0] []) false []).1 =
         [unifyBoth (Nfa.mk 1 [0] [0] [])]) := by
  intro h
  exact absurd h.2 (by decide)

/-- C3 amended.  Before the concatenation step, the reference-sequence
overload unifies the initial and final states of every left automaton for
every value of `params`; the pointer-sequence overload does so exactly when
`params` maps `"reduce"` to one of `"forward"`, `"backward"`,
`"bidirectional"`, and otherwise leaves the left automata untouched. -/
theorem unify_preprocessing_amended (left : List Nfa) (right : Nfa)
    (include_empty : Bool) (params : StringDict) :
    (noodlify_for_equation_refs left right include_empty params).1 = left.map unifyBoth ∧
    (noodlify_for_equation_ptrs left right include_empty params).1 =
      (if reduceParamRecognized params then left.map unifyBoth else left) :=
  ⟨rfl, rfl⟩

/-- Counterexample to C4 as stated: the reference-sequence overload mutates
its left automata in place (noodlify.cc:170-174 runs `unify_initial` /
`unify_final` on the caller's automata before the early-return checks), so
the inputs do not equal their values before the call. -/
theorem purity_cex :
    ¬ ((noodlify_for_equation_refs [Nfa.mk 2 [0, 1] [1] []] (Nfa.mk 1 [0] [] []) true []).1 =
        [Nfa.mk 2 [0, 1] [1] []]) := by decide

/-- C4 amended.  The pipeline is deterministic (two runs on equal inputs
return equal results) and never mutates the right automaton (taken by
constant reference), but the left automata are mutated: after the
reference-sequence call each equals its unified image — also on the
early-return paths, since the unification precedes the emptiness checks —
and after the pointer-sequence call they are unified exactly when the
`reduce` parameter is recognized. -/
theorem purity_amended (left left2 : List Nfa) (right right2 : Nfa)
    (ie ie2 : Bool) (params params2 : StringDict) :
    (noodlify_for_equation_refs left right ie params).1 = left.map unifyBoth ∧
    (noodlify_for_equation_ptrs left right ie params).1 =
      (if reduceParamRecognized params then left.map unifyBoth else left) ∧
    (left = left2 → right = right2 → ie = ie2 → params = params2 →
      noodlify_for_equation_refs left right ie params =
        noodlify_for_equation_refs left2 right2 ie2 params2 ∧
      noodlify_for_equation_ptrs left right ie params =
        noodlify_for_equation_ptrs left2 right2 ie2 params2) := by
  refine ⟨rfl, rfl, ?_⟩
  intro h1 h2 h3 h4
  subst h1; subst h2; subst h3; subst h4
  exact ⟨rfl, rfl⟩

/-- Witness for the amended C4 at a concrete input. -/
theorem purity_amended_witness :
    noodlify_for_equation_refs [Nfa.mk 2 [0, 1] [1] []] (Nfa.mk 1 [0] [] []) true [] =
      noodlify_for_equation_refs [Nfa.mk 2 [0, 1] [1] []] (Nfa.mk 1 [0] [] []) true [] :=
  ((purity_amended [Nfa.mk 2 [0, 1] [1] []] [Nfa.mk 2 [0, 1] [1] []]
      (Nfa.mk 1 [0] [] []) (Nfa.mk 1 [0] [] []) true true [] []).2.2 rfl rfl rfl rfl).1

/-- Counterexample to C10 as stated: on equal inputs with `params` lacking a
recognized `reduce` value, the two overloads disagree — the reference
overload unifies the left automata, the pointer overload does not. -/
theorem overload_equivalence_cex :
    ¬ (noodlify_for_equation_refs [Nfa.mk 1 [0] [0] []] (Nfa.mk 1 [0] [] []) false [] =
       noodlify_for_equation_ptrs [Nfa.mk 1 [0] [0] []] (Nfa.mk 1 [0] [] []) false []) := by
  decide

/-- C10 amended.  When `params` maps `"reduce"` to one of `"forward"`,
`"backward"`, `"bidirectional"`, the two public overloads perform the same
unify-initial/unify-final preprocessing and return equal results on equal
inputs; otherwise the pointer overload skips the unification (see the
counterexample). -/
theorem overload_equivalence_amended (left : List Nfa) (right : Nfa)
    (include_empty : Bool) (params : StringDict)
    (h : reduceParamRecognized params = true) :
    noodlify_for_equation_refs left right include_empty params =
      noodlify_for_equation_ptrs left right include_empty params := by
  simp only [noodlify_for_equation_refs, noodlify_for_equation_ptrs, h, if_true]

/-- Witness for the amended C10 at a concrete input. -/
theorem overload_equivalence_amended_witness :
    reduceParamRecognized [("reduce", "forward")] = true ∧
    noodlify_for_equation_refs [] (Nfa.mk 1 [0] [0] []) false [("reduce", "forward")] =
      noodlify_for_equation_ptrs [] (Nfa.mk 1 [0] [0] []) false [("reduce", "forward")] :=
  ⟨by decide,
   overload_equivalence_amended [] (Nfa.mk 1 [0] [0] []) false [("reduce", "forward")]
     (by decide)⟩

/-- C7.  Reduce-parameter semantics: with `P` the trimmed ε-preserving
product, `params["reduce"] = "forward"` replaces `P` by `reduce(P)`,
`"backward"` by `revert(reduce(revert(P)))`, `"bidirectional"` applies the
forward reduction first and then the backward one; any other value, or an
absent key, leaves `P` unreduced; and `noodlify` is then applied to the
resulting automaton. -/
theorem reduce_param_semantics (reduceFn revertFn : Nfa → Nfa) (params : StringDict) (p : Nfa) :
    (params.lookup "reduce" = some "forward" →
      reduceByParams reduceFn revertFn params p = reduceFn p) ∧
    (params.lookup "reduce" = some "backward" →
      reduceByParams reduceFn revertFn params p = revertFn (reduceFn (revertFn p))) ∧
    (params.lookup "reduce" = some "bidirectional" →
      reduceByParams reduceFn revertFn params p =
        revertFn (reduceFn (revertFn (reduceFn p)))) ∧
    ((∀ v, params.lookup "reduce" = some v →
        v ≠ "forward" ∧ v ≠ "backward" ∧ v ≠ "bidirectional") →
      reduceByParams reduceFn revertFn params p = p) ∧
    (∀ l0 rest right ie,
      is_lang_empty right = false →
      is_lang_empty (equationProduct l0 rest right (equationEpsilon (l0 :: rest) right)) =
        false →
      noodlifyForEquationCore (l0 :: rest) right ie params =
        noodlify
          (reduceByParams reduce revert params
            (equationProduct l0 rest right (equationEpsilon (l0 :: rest) right)))
          (equationEpsilon (l0 :: rest) right) ie) := by
  refine ⟨?_, ?_, ?_, ?_, ?_⟩
  · intro h; simp [reduceByParams, h]
  · intro h; simp [reduceByParams, h]
  · intro h; simp [reduceByParams, h]
  · intro h
    cases hlk : params.lookup "reduce" with
    | none => simp [reduceByParams, hlk]
    | some v =>
      obtain ⟨h1, h2, h3⟩ := h v hlk
      simp [reduceByParams, hlk, h1, h2, h3]
  · intro l0 rest right ie h1 h2
    simp [noodlifyForEquationCore, h1, h2]

/-- Witness for C7 at a concrete input (`"reduce" = "forward"`). -/
theorem reduce_param_semantics_witness :
    ([("reduce", "forward")] : StringDict).lookup "reduce" = some "forward" ∧
    reduceByParams reduce revert [("reduce", "forward")] (Nfa.mk 1 [0] [0] []) =
      reduce (Nfa.mk 1 [0] [0] []) :=
  ⟨by decide,
   (reduce_param_semantics reduce revert [("reduce", "forward")] (Nfa.mk 1 [0] [0] [])).1
     (by decide)⟩

theorem get_num_of_permutations_cons (dl : List Trans) (rest : List (List Trans)) :
    get_num_of_permutations (dl :: rest) = dl.length * get_num_of_permutations rest := by
  have haux : ∀ (l : List (List Trans)) (a : Nat),
      l.foldl (fun acc seg => acc * seg.length) a =
        a * l.foldl (fun acc seg => acc * seg.length) 1 := by
    intro l
    induction l with
    | nil => intro a; simp
    | cons x xs ih =>
      intro a
      simp only [List.foldl_cons]
      rw [ih (a * x.length), ih (1 * x.length)]
      ring
  simp only [get_num_of_permutations, List.foldl_cons]
  rw [haux rest (1 * dl.length)]
  ring

theorem epsilonNoodle_acc (depths : List (List Trans)) :
    ∀ (acc : List Trans) (i : Nat),
      (depths.foldl
        (fun (p : List Trans × Nat) dl =>
          (p.1 ++ [dl.getD (p.2 % dl.length) (Trans.mk 0 0 0)], p.2 / dl.length))
        (acc, i)).1 = acc ++ epsilonNoodle depths i := by
  induction depths with
  | nil => intro acc i; simp [epsilonNoodle]
  | cons dl rest ih =>
    intro acc i
    simp only [List.foldl_cons, epsilonNoodle]
    rw [ih, ih]
    simp

theorem epsilonNoodle_cons (dl : List Trans) (rest : List (List Trans)) (i : Nat) :
    epsilonNoodle (dl :: rest) i =
      dl.getD (i % dl.length) (Trans.mk 0 0 0) :: epsilonNoodle rest (i / dl.length) := by
  conv_lhs => simp only [epsilonNoodle, List.foldl_cons]
  rw [epsilonNoodle_acc]
  simp

theorem epsilonNoodle_length (depths : List (List Trans)) :
    ∀ i : Nat, (epsilonNoodle depths i).length = depths.length := by
  induction depths with
  | nil => intro i; rfl
  | cons dl rest ih =>
    intro i
    rw [epsilonNoodle_cons]
    simp [ih]

theorem radixWeight_zero (depths : List (List Trans)) : radixWeight depths 0 = 1 := by
  simp [radixWeight]

theorem radixWeight_cons_succ (dl : List Trans) (rest : List (List Trans)) (d : Nat) :
    radixWeight (dl :: rest) (d + 1) = dl.length * radixWeight rest d := by
  simp [radixWeight, List.take_succ_cons]

theorem epsilonNoodle_getD (depths : List (List Trans)) :
    ∀ (index d : Nat), d < depths.length → index < get_num_of_permutations depths →
    (epsilonNoodle depths index).getD d (Trans.mk 0 0 0) =
      (depths.getD d []).getD
        ((index / radixWeight depths d) % (depths.getD d []).length) (Trans.mk 0 0 0) := by
  induction depths with
  | nil => intro index d hd; simp at hd
  | cons dl rest ih =>
    intro index d hd hidx
    rw [get_num_of_permutations_cons] at hidx
    have hlen : 0 < dl.length := by
      rcases Nat.eq_zero_or_pos dl.length with h0 | h
      · rw [h0, Nat.zero_mul] at hidx; exact absurd hidx (Nat.not_lt_zero _)
      · exact h
    cases d with
    | zero =>
      rw [epsilonNoodle_cons]
      simp [radixWeight_zero]
    | succ d =>
      rw [epsilonNoodle_cons]
      simp only [List.getD_cons_succ]
      have hidx' : index / dl.length < get_num_of_permutations rest := by
        rw [Nat.div_lt_iff_lt_mul hlen]
        rwa [Nat.mul_comm] at hidx
      rw [ih (index / dl.length) d (Nat.lt_of_succ_lt_succ hd) hidx']
      rw [radixWeight_cons_succ, Nat.div_div_eq_div_mul]

/-- C8.  Mixed-radix enumeration: when the segmentation has at least two
segments, `noodlify` emits, in exactly index order over
`[0, ∏ⱼ|Eⱼ|)`, the noodle of the assignment decoded from each index; the
assignment has one ε-transition per depth, and the transition chosen at depth
`d` is `E_d[(index / (|E₀|·…·|E_{d-1}|)) % |E_d|]` — so the output sequence
and its order are uniquely determined by the input. -/
theorem mixed_radix_enumeration (aut : Nfa) (epsilon : Symbol) (include_empty : Bool)
    (h2 : 2 ≤ (untrimmed_segments aut epsilon).length) :
    noodlify aut epsilon include_empty =
      (List.range (get_num_of_permutations (epsilon_depths aut epsilon))).filterMap
        (fun index => noodleOfAssignment
          (buildMemo (untrimmed_segments aut epsilon) aut.get_num_of_states include_empty)
          aut.get_num_of_states (epsilonNoodle (epsilon_depths aut epsilon) index)) ∧
    (∀ index, (epsilonNoodle (epsilon_depths aut epsilon) index).length =
      (epsilon_depths aut epsilon).length) ∧
    (∀ index d, d < (epsilon_depths aut epsilon).length →
      index < get_num_of_permutations (epsilon_depths aut epsilon) →
      (epsilonNoodle (epsilon_depths aut epsilon) index).getD d (Trans.mk 0 0 0) =
        ((epsilon_depths aut epsilon).getD d []).getD
          ((index / radixWeight (epsilon_depths aut epsilon) d) %
            ((epsilon_depths aut epsilon).getD d []).length) (Trans.mk 0 0 0)) := by
  refine ⟨?_, fun index => epsilonNoodle_length _ index,
    fun index d hd hidx => epsilonNoodle_getD _ index d hd hidx⟩
  have hne : ¬ (untrimmed_segments aut epsilon).length = 1 := by omega
  simp only [noodlify, if_neg hne]

/-- Witness for C8 at a concrete two-segment input (the ε-concatenation of an
automaton for `a` with an automaton for `b`, with ε = 9). -/
theorem mixed_radix_enumeration_witness :
    2 ≤ (untrimmed_segments
      (Nfa.mk 4 [0] [3] [Trans.mk 0 1 1, Trans.mk 1 9 2, Trans.mk 2 2 3]) 9).length ∧
    noodlify (Nfa.mk 4 [0] [3] [Trans.mk 0 1 1, Trans.mk 1 9 2, Trans.mk 2 2 3]) 9 false =
      (List.range (get_num_of_permutations
        (epsilon_depths
          (Nfa.mk 4 [0] [3] [Trans.mk 0 1 1, Trans.mk 1 9 2, Trans.mk 2 2 3]) 9))).filterMap
        (fun index => noodleOfAssignment
          (buildMemo
            (untrimmed_segments
              (Nfa.mk 4 [0] [3] [Trans.mk 0 1 1, Trans.mk 1 9 2, Trans.mk 2 2 3]) 9)
            (Nfa.mk 4 [0] [3] [Trans.mk 0 1 1, Trans.mk 1 9 2, Trans.mk 2 2 3]).get_num_of_states
            false)
          (Nfa.mk 4 [0] [3] [Trans.mk 0 1 1, Trans.mk 1 9 2, Trans.mk 2 2 3]).get_num_of_states
          (epsilonNoodle
            (epsilon_depths
              (Nfa.mk 4 [0] [3] [Trans.mk 0 1 1, Trans.mk 1 9 2, Trans.mk 2 2 3]) 9) index)) :=
  ⟨by decide,
   (mixed_radix_enumeration
     (Nfa.mk 4 [0] [3] [Trans.mk 0 1 1, Trans.mk 1 9 2, Trans.mk 2 2 3]) 9 false
     (by decide)).1⟩

/-! ### Helper lemmas about the NFA primitives and the converter state -/

theorem insertState_mono {x : State} {l : List State} (s : State) (h : x ∈ l) :
    x ∈ insertState s l := by
  unfold insertState
  split
  · exact h
  · exact List.mem_append_left _ h

theorem insertState_self (s : State) (l : List State) : s ∈ insertState s l := by
  unfold insertState
  split
  · assumption
  · simp

theorem add_trans_trans_mono {x : Trans} {a : Nfa} (s : State) (sy : Symbol) (t : State)
    (h : x ∈ a.trans) : x ∈ (a.add_trans s sy t).trans := by
  unfold Nfa.add_trans
  split
  · exact h
  · exact List.mem_append_left _ h

theorem add_trans_mem (a : Nfa) (s : State) (sy : Symbol) (t : State) :
    Trans.mk s sy t ∈ (a.add_trans s sy t).trans := by
  unfold Nfa.add_trans
  split
  · assumption
  · simp

theorem add_trans_initial (a : Nfa) (s : State) (sy : Symbol) (t : State) :
    (a.add_trans s sy t).initialstates = a.initialstates := by
  unfold Nfa.add_trans; split <;> rfl

theorem add_trans_final (a : Nfa) (s : State) (sy : Symbol) (t : State) :
    (a.add_trans s sy t).finalstates = a.finalstates := by
  unfold Nfa.add_trans; split <;> rfl

theorem add_trans_num (a : Nfa) (s : State) (sy : Symbol) (t : State) :
    (a.add_trans s sy t).numStates = a.numStates := by
  unfold Nfa.add_trans; split <;> rfl

theorem add_trans_trans_cases {x : Trans} {a : Nfa} {s : State} {sy : Symbol} {t : State}
    (h : x ∈ (a.add_trans s sy t).trans) : x ∈ a.trans ∨ x = Trans.mk s sy t := by
  unfold Nfa.add_trans at h
  split at h
  · exact Or.inl h
  · rcases List.mem_append.mp h with h | h
    · exact Or.inl h
    · exact Or.inr (List.mem_singleton.mp h)

theorem make_final_trans (a : Nfa) (s : State) : (a.make_final s).trans = a.trans := rfl

theorem make_final_initial (a : Nfa) (s : State) :
    (a.make_final s).initialstates = a.initialstates := rfl

theorem make_final_final_mono {x : State} (a : Nfa) (s : State) (h : x ∈ a.finalstates) :
    x ∈ (a.make_final s).finalstates := insertState_mono s h

theorem ConvertLe.rfl (st : ConvertSt) : ConvertLe st st :=
  ⟨fun _ h => h, fun _ h => h, Eq.refl _, fun _ h => h⟩

theorem ConvertLe.trans {s1 s2 s3 : ConvertSt} (h1 : ConvertLe s1 s2) (h2 : ConvertLe s2 s3) :
    ConvertLe s1 s3 :=
  ⟨fun x hx => h2.1 x (h1.1 x hx), fun x hx => h2.2.1 x (h1.2.1 x hx),
   h2.2.2.1.trans h1.2.2.1, fun x hx => h2.2.2.2 x (h1.2.2.2 x hx)⟩

theorem makeStateFinal_le (mapping : Nat → List Nat) (s : Nat) (st : ConvertSt) :
    ConvertLe st (makeStateFinal mapping s st) := by
  unfold makeStateFinal
  refine foldlPreserve _ (fun x => ConvertLe st x) ?_ (mapping s) st (ConvertLe.rfl st)
  intro st' a h
  dsimp only
  split
  · exact h.trans ⟨fun x hx => hx, fun x hx => insertState_mono a hx, make_final_initial _ _,
      fun x hx => hx⟩
  · exact h

theorem foldl_convertLe {α : Type _} (f : ConvertSt → α → ConvertSt)
    (h : ∀ s a, ConvertLe s (f s a)) (l : List α) (s : ConvertSt) :
    ConvertLe s (l.foldl f s) := by
  refine foldlPreserve f (fun x => ConvertLe s x) ?_ l s (ConvertLe.rfl s)
  intro s2 a hs2
  exact hs2.trans (h s2 a)

theorem addTrans_convertLe (st : ConvertSt) (s2 : Nat) (sy : Symbol) (t : Nat) :
    ConvertLe st { st with nfa := st.nfa.add_trans s2 sy t } :=
  ⟨fun x hx => add_trans_trans_mono _ _ _ hx,
   fun x hx => by rw [add_trans_final]; exact hx,
   by rw [add_trans_initial],
   fun x hx => hx⟩

theorem ceStep_le (ue : Bool) (ms mt : Nat) (st : ConvertSt) (sym : Symbol) :
    ConvertLe st (ceStep ue ms mt st sym) := by
  unfold ceStep
  cases ue with
  | true =>
    simp only [if_true]
    split
    · exact ⟨fun x hx => add_trans_trans_mono _ _ _ hx,
        fun x hx => by rw [add_trans_final]; exact hx,
        by rw [add_trans_initial],
        fun x hx => by
          by_cases hxeq : x = mt
          · simp [Function.update, hxeq]
          · simp [Function.update, hxeq]; exact hx⟩
    · exact ConvertLe.rfl st
  | false =>
    simp only [Bool.false_eq_true, if_false]
    split
    · exact ⟨fun x hx => add_trans_trans_mono _ _ _ hx,
        fun x hx => by rw [add_trans_final]; exact hx,
        by rw [add_trans_initial],
        fun x hx => by
          by_cases hxeq : x = mt
          · simp [Function.update, hxeq]
          · simp [Function.update, hxeq]; exact hx⟩
    · exact ⟨fun x hx => hx, fun x hx => hx, Eq.refl _, fun x hx => hx⟩

theorem ceLoops_le (mapping : Nat → List Nat) (ue : Bool) (cur : Nat) (inst : Inst)
    (symbols : List Symbol) (st : ConvertSt) :
    ConvertLe st (ceLoops mapping ue cur inst symbols st) := by
  unfold ceLoops
  refine foldl_convertLe _ ?_ _ st
  intro s1 ms
  refine foldl_convertLe _ ?_ _ s1
  intro s2 mt
  exact foldl_convertLe _ (fun s3 sym => ceStep_le ue ms mt s3 sym) _ s2

theorem createExplicit_le (mapping : Nat → List Nat) (ue : Bool) (ev : Symbol) (cur : Nat)
    (inst : Inst) (isLast : Bool) (symbols : List Symbol) (st : ConvertSt) :
    ConvertLe st (createExplicitTransitions mapping ue ev cur inst isLast symbols st) := by
  unfold createExplicitTransitions
  have h1 := ceLoops_le mapping ue cur inst symbols st
  dsimp only
  split
  · split
    · exact h1
    · exact h1.trans (addTrans_convertLe _ _ _ _)
  · exact h1

theorem copyEdges_convertLe (st : ConvertSt) (l : List (Nat × Nat)) :
    ConvertLe st { st with copyEdgesFromTo := l } :=
  ⟨fun _ hx => hx, fun _ hx => hx, Eq.refl _, fun _ hx => hx⟩

theorem convertStep_le (prog : Prog) (cache : StateCache) (ue : Bool) (ev : Symbol)
    (st : ConvertSt) (cur : Nat) : ConvertLe st (convertStep prog cache ue ev st cur) := by
  unfold convertStep
  dsimp only
  have h1 : ConvertLe st
      (if cache.is_final_state cur = true then makeStateFinal cache.state_mapping cur st
       else st) := by
    split
    · exact makeStateFinal_le _ _ _
    · exact ConvertLe.rfl st
  cases hop : (prog.inst cur).opcode
  · dsimp only
    split
    · exact h1.trans (createExplicit_le _ _ _ _ _ _ _ _)
    · split
      · exact h1.trans (createExplicit_le _ _ _ _ _ _ _ _)
      · exact (h1.trans (createExplicit_le _ _ _ _ _ _ _ _)).trans (copyEdges_convertLe _ _)
  · exact h1
  · dsimp only
    split
    · exact h1.trans (createExplicit_le _ _ _ _ _ _ _ _)
    · exact h1
  · dsimp only
    split
    · exact h1.trans (createExplicit_le _ _ _ _ _ _ _ _)
    · exact h1
  · dsimp only
    split
    · exact h1.trans (createExplicit_le _ _ _ _ _ _ _ _)
    · split
      · exact h1.trans (createExplicit_le _ _ _ _ _ _ _ _)
      · exact (h1.trans (createExplicit_le _ _ _ _ _ _ _ _)).trans (copyEdges_convertLe _ _)

theorem emptyWidthSymbolOfBit_mem {flags b : Nat} (hb : b < 6)
    (hbit : flags.testBit b = true) :
    emptyWidthSymbolOfBit b ∈ emptyWidthSymbols flags := by
  interval_cases b <;>
    simp [emptyWidthSymbols, emptyWidthSymbolOfBit, hbit, List.mem_append]

theorem ceLoops_mem_eps (cur : Nat) (inst : Inst) (symbols : List Symbol)
    (s0 : Symbol) (hs0 : s0 ∈ symbols) (st : ConvertSt)
    (hinc : ∀ x, st.incoming x = true) :
    Trans.mk cur s0 inst.out ∈
      (ceLoops (fun s => [s]) true cur inst symbols st).nfa.trans := by
  unfold ceLoops
  simp only [List.foldl_cons, List.foldl_nil]
  refine foldlEstablish (ceStep true cur inst.out)
    (fun x => Trans.mk cur s0 inst.out ∈ x.nfa.trans)
    (fun x => ∀ y, x.incoming y = true) ?_ ?_ s0 ?_ symbols st hs0 hinc
  · intro s a hq y
    exact (ceStep_le true cur inst.out s a).2.2.2 y (hq y)
  · intro s a hp
    exact (ceStep_le true cur inst.out s a).1 _ hp
  · intro s hq
    unfold ceStep
    simp only [if_true]
    rw [if_pos (hq cur)]
    exact add_trans_mem _ _ _ _

theorem createExplicit_mem_eps (ev : Symbol) (cur : Nat) (inst : Inst) (isLast : Bool)
    (symbols : List Symbol) (s0 : Symbol) (hs0 : s0 ∈ symbols) (st : ConvertSt)
    (hinc : ∀ x, st.incoming x = true) :
    Trans.mk cur s0 inst.out ∈
      (createExplicitTransitions (fun s => [s]) true ev cur inst isLast symbols st).nfa.trans := by
  have hmem := ceLoops_mem_eps cur inst symbols s0 hs0 st hinc
  show Trans.mk cur s0 inst.out ∈
    (if isLast = true then ceLoops (fun s => [s]) true cur inst symbols st
     else { ceLoops (fun s => [s]) true cur inst symbols st with
              nfa := (ceLoops (fun s => [s]) true cur inst symbols st).nfa.add_trans
                cur ev (cur + 1) }).nfa.trans
  split
  · exact hmem
  · exact add_trans_trans_mono _ _ _ hmem

theorem convertStep_emptyWidth_mem (prog : Prog) (ev : Symbol) (pc b : Nat)
    (hop : (prog.inst pc).opcode = Opcode.kInstEmptyWidth)
    (hbit : ((prog.inst pc).emptyFlags).testBit b = true) (hb : b < 6)
    (st : ConvertSt) (hinc : ∀ x, st.incoming x = true) :
    Trans.mk pc (emptyWidthSymbolOfBit b) ((prog.inst pc).out) ∈
      (convertStep prog (create_state_cache_with_epsilon prog) true ev st pc).nfa.trans := by
  have hmem0 : emptyWidthSymbolOfBit b ∈ emptyWidthSymbols ((prog.inst pc).emptyFlags) :=
    emptyWidthSymbolOfBit_mem hb hbit
  have hne : ¬ (emptyWidthSymbols ((prog.inst pc).emptyFlags) = []) := by
    intro h
    rw [h] at hmem0
    exact absurd hmem0 (List.not_mem_nil _)
  have hincMid : ∀ y,
      (if (create_state_cache_with_epsilon prog).is_final_state pc = true then
        makeStateFinal (create_state_cache_with_epsilon prog).state_mapping pc st
       else st).incoming y = true := by
    intro y
    split
    · exact (makeStateFinal_le _ _ _).2.2.2 y (hinc y)
    · exact hinc y
  unfold convertStep
  dsimp only
  rw [hop]
  dsimp only
  rw [if_neg hne]
  exact createExplicit_mem_eps ev pc (prog.inst pc)
    ((create_state_cache_with_epsilon prog).is_last pc)
    (emptyWidthSymbols ((prog.inst pc).emptyFlags)) (emptyWidthSymbolOfBit b) hmem0 _ hincMid

/-- C9.  Empty-width assertion encoding: for every `kInstEmptyWidth`
instruction of the program, each set assertion flag is encoded as a
transition labelled with the corresponding reserved symbol constant —
`^`→300, `$`→10, `\A`→301, `\z`→302, `\b`→303, `\B`→304 — from the
instruction's state toward its `out`-target; these transitions are emitted
into the constructed NFA (and are given no further semantics by the
compiler: downstream they are ordinary symbols). -/
theorem empty_width_encoding (prog : Prog) (epsilon_value : Symbol) (pc b : Nat)
    (hpc1 : prog.start ≤ pc) (hpc2 : pc < prog.size)
    (hop : (prog.inst pc).opcode = Opcode.kInstEmptyWidth)
    (hb : b < 6) (hbit : ((prog.inst pc).emptyFlags).testBit b = true) :
    Trans.mk pc (emptyWidthSymbolOfBit b) ((prog.inst pc).out) ∈
      (explicitNfaOf prog true epsilon_value).nfa.trans := by
  unfold explicitNfaOf
  simp only [create_state_cache, if_pos (Eq.refl true)]
  refine foldlEstablish
    (convertStep prog (create_state_cache_with_epsilon prog) true epsilon_value)
    (fun x => Trans.mk pc (emptyWidthSymbolOfBit b) ((prog.inst pc).out) ∈ x.nfa.trans)
    (fun x => ∀ y, x.incoming y = true) ?_ ?_ pc ?_ _ _ ?_ ?_
  · intro s a hq y
    exact (convertStep_le prog _ true epsilon_value s a).2.2.2 y (hq y)
  · intro s a hp
    exact (convertStep_le prog _ true epsilon_value s a).1 _ hp
  · intro s hq
    exact convertStep_emptyWidth_mem prog epsilon_value pc b hop hbit hb s hq
  · refine List.mem_range'_1.mpr ⟨hpc1, ?_⟩
    omega
  · intro y
    simp [Function.update, create_state_cache_with_epsilon]

/-! ### Lemmas towards the dense-state invariant (C5) -/

theorem gmsGo_mapped_mono (prog : Prog) :
    ∀ (fuel : Nat) (wl : List Nat) (checked : Finset Nat) (mapped : List Nat) (x : Nat),
      x ∈ mapped → x ∈ gmsGo prog fuel wl checked mapped := by
  intro fuel
  induction fuel with
  | zero => intro wl checked mapped x hx; exact hx
  | succ fuel ih =>
    intro wl checked mapped x hx
    cases wl with
    | nil => exact hx
    | cons s rest =>
      simp only [gmsGo]
      split
      · exact ih _ _ _ x (List.mem_append_left _ hx)
      · split
        · exact ih _ _ _ x hx
        · exact ih _ _ _ x (List.mem_append_left _ hx)

theorem gmsGo_inv (prog : Prog)
    (hout1 : ∀ i, i < prog.size → prog.start ≤ (prog.inst i).out)
    (hout2 : ∀ i, i < prog.size → (prog.inst i).out < prog.size)
    (hnext : ∀ i, prog.start ≤ i → i < prog.size → (prog.inst i).last = false →
      i + 1 < prog.size) :
    ∀ (fuel : Nat) (wl : List Nat) (checked : Finset Nat) (mapped : List Nat),
      (∀ x ∈ wl, prog.start ≤ x ∧ x < prog.size) →
      (∀ x ∈ mapped, prog.start ≤ x ∧ x < prog.size ∧
        (prog.inst x).opcode ≠ Opcode.kInstCapture ∧ (prog.inst x).opcode ≠ Opcode.kInstNop) →
      ∀ x ∈ gmsGo prog fuel wl checked mapped,
        prog.start ≤ x ∧ x < prog.size ∧
        (prog.inst x).opcode ≠ Opcode.kInstCapture ∧ (prog.inst x).opcode ≠ Opcode.kInstNop := by
  intro fuel
  induction fuel with
  | zero => intro wl checked mapped _ hm x hx; exact hm x hx
  | succ fuel ih =>
    intro wl checked mapped hwl hm x hx
    cases wl with
    | nil => exact hm x hx
    | cons s rest =>
      have hs := hwl s (List.mem_cons_self s rest)
      have hrest : ∀ y ∈ rest, prog.start ≤ y ∧ y < prog.size := fun y hy =>
        hwl y (List.mem_cons_of_mem s hy)
      by_cases h1 : (prog.inst s).last = true ∧ (prog.inst s).opcode ≠ Opcode.kInstCapture ∧
          (prog.inst s).opcode ≠ Opcode.kInstNop
      · simp only [gmsGo] at hx
        rw [if_pos h1] at hx
        refine ih rest _ (mapped ++ [s]) hrest ?_ x hx
        intro y hy
        rcases List.mem_append.mp hy with hy | hy
        · exact hm y hy
        · rw [List.mem_singleton.mp hy]
          exact ⟨hs.1, hs.2, h1.2.1, h1.2.2⟩
      · simp only [gmsGo] at hx
        rw [if_neg h1] at hx
        have hrest1 : ∀ y ∈ (if (prog.inst s).last = true then rest
            else if s + 1 ∈ insert s checked then rest else (s + 1) :: rest),
            prog.start ≤ y ∧ y < prog.size := by
          intro y hy
          by_cases hlast : (prog.inst s).last = true
          · rw [if_pos hlast] at hy; exact hrest y hy
          · rw [if_neg hlast] at hy
            by_cases hmem1 : s + 1 ∈ insert s checked
            · rw [if_pos hmem1] at hy; exact hrest y hy
            · rw [if_neg hmem1] at hy
              rcases List.mem_cons.mp hy with heq | hy2
              · subst heq
                refine ⟨by omega, hnext s hs.1 hs.2 ?_⟩
                revert hlast; cases (prog.inst s).last <;> simp
              · exact hrest y hy2
        by_cases h2 : (prog.inst ((prog.inst s).out)).opcode = Opcode.kInstCapture ∨
            (prog.inst ((prog.inst s).out)).opcode = Opcode.kInstNop
        · rw [if_pos h2] at hx
          refine ih _ _ mapped ?_ hm x hx
          intro y hy
          split at hy
          · exact hrest1 y hy
          · rcases List.mem_cons.mp hy with heq | hy2
            · subst heq
              exact ⟨hout1 s hs.2, hout2 s hs.2⟩
            · exact hrest1 y hy2
        · rw [if_neg h2] at hx
          refine ih _ _ (mapped ++ [(prog.inst s).out]) hrest1 ?_ x hx
          intro y hy
          rcases List.mem_append.mp hy with hy | hy
          · exact hm y hy
          · rw [List.mem_singleton.mp hy]
            refine ⟨hout1 s hs.2, hout2 s hs.2, ?_, ?_⟩
            · intro hc; exact h2 (Or.inl hc)
            · intro hc; exact h2 (Or.inr hc)

theorem gmsGo_chain_nonempty (prog : Prog) (nu : Nat → Nat)
    (hout2 : ∀ i, i < prog.size → (prog.inst i).out < prog.size)
    (hdec : ∀ i, i < prog.size →
      ((prog.inst i).opcode = Opcode.kInstCapture ∨ (prog.inst i).opcode = Opcode.kInstNop) →
      nu ((prog.inst i).out) < nu i) :
    ∀ (fuel : Nat) (s : Nat) (rest : List Nat) (checked : Finset Nat) (mapped : List Nat),
      s < prog.size →
      ((prog.inst s).opcode = Opcode.kInstCapture ∨ (prog.inst s).opcode = Opcode.kInstNop) →
      (∀ c ∈ checked, nu s < nu c) →
      nu s + 1 ≤ fuel →
      gmsGo prog fuel (s :: rest) checked mapped ≠ [] := by
  intro fuel
  induction fuel with
  | zero => intro s rest checked mapped _ _ _ hfuel; omega
  | succ f ih =>
    intro s rest checked mapped hs hnc hchk hfuel
    have h1 : ¬ ((prog.inst s).last = true ∧ (prog.inst s).opcode ≠ Opcode.kInstCapture ∧
        (prog.inst s).opcode ≠ Opcode.kInstNop) := by
      rintro ⟨_, hca, hno⟩
      rcases hnc with h | h
      · exact hca h
      · exact hno h
    simp only [gmsGo]
    rw [if_neg h1]
    by_cases h2 : (prog.inst ((prog.inst s).out)).opcode = Opcode.kInstCapture ∨
        (prog.inst ((prog.inst s).out)).opcode = Opcode.kInstNop
    · rw [if_pos h2]
      have hnuout : nu ((prog.inst s).out) < nu s := hdec s hs hnc
      have hnotmem : (prog.inst s).out ∉ insert s checked := by
        intro hmem
        rcases Finset.mem_insert.mp hmem with heq | hmem2
        · rw [heq] at hnuout; omega
        · have := hchk _ hmem2; omega
      rw [if_neg hnotmem]
      refine ih ((prog.inst s).out) _ (insert s checked) mapped (hout2 s hs) h2 ?_ (by omega)
      intro c hc
      rcases Finset.mem_insert.mp hc with heq | hc2
      · rw [heq]; exact hnuout
      · exact lt_trans hnuout (hchk c hc2)
    · rw [if_neg h2]
      exact List.ne_nil_of_mem (gmsGo_mapped_mono prog f _ _ _ _
        (List.mem_append_right _ (List.mem_singleton.mpr rfl)))

theorem get_mapped_states_ne_nil (prog : Prog) (nu : Nat → Nat)
    (hnu : ∀ i, nu i < prog.size)
    (hout2 : ∀ i, i < prog.size → (prog.inst i).out < prog.size)
    (hdec : ∀ i, i < prog.size →
      ((prog.inst i).opcode = Opcode.kInstCapture ∨ (prog.inst i).opcode = Opcode.kInstNop) →
      nu ((prog.inst i).out) < nu i)
    (s : Nat) (hs : s < prog.size)
    (hnc : (prog.inst s).opcode = Opcode.kInstCapture ∨ (prog.inst s).opcode = Opcode.kInstNop) :
    get_mapped_states prog s ≠ [] := by
  refine gmsGo_chain_nonempty prog nu hout2 hdec _ s [] ∅ [] hs hnc (by simp) ?_
  have h1 := hnu s
  have h2 : prog.size ≤ 2 ^ (2 * prog.size + 2) := by
    calc prog.size ≤ 2 * prog.size + 2 := by omega
    _ ≤ 2 ^ (2 * prog.size + 2) := Nat.le_of_lt (Nat.lt_two_pow _)
  omega

theorem emptyWidthSymbols_ne_nil {flags : Nat} (h0 : flags ≠ 0) (h64 : flags < 64) :
    emptyWidthSymbols flags ≠ [] := by
  intro hemp
  apply h0
  have hbits : ∀ k, k < 6 → flags.testBit k = false := by
    intro k hk
    by_contra hbt
    have hbt2 : flags.testBit k = true := by revert hbt; cases flags.testBit k <;> simp
    have hmem := emptyWidthSymbolOfBit_mem hk hbt2
    rw [hemp] at hmem
    exact absurd hmem (List.not_mem_nil _)
  refine Nat.eq_of_testBit_eq ?_
  intro i
  rcases Nat.lt_or_ge i 6 with hi | hi
  · rw [hbits i hi, Nat.zero_testBit]
  · have hlt : flags < 2 ^ i := by
      calc flags < 64 := h64
      _ = 2 ^ 6 := by norm_num
      _ ≤ 2 ^ i := Nat.pow_le_pow_right (by omega) hi
    rw [Nat.testBit_lt_two_pow hlt, Nat.zero_testBit]

theorem symbolsRange_ne_nil {lo hi : Nat} (h : lo ≤ hi) : symbolsRange lo hi ≠ [] := by
  simp only [symbolsRange, ne_eq, List.map_eq_nil_iff, List.range_eq_nil]
  omega

/-- A fold-step property restricted to the members of the folded list. -/
theorem foldlPreserveMem {α σ : Type _} (f : σ → α → σ) (P : σ → Prop) :
    ∀ (l : List α), (∀ s a, a ∈ l → P s → P (f s a)) → ∀ s, P s → P (l.foldl f s)
  | [], _, _, hs => hs
  | a :: l, h, s, hs =>
    foldlPreserveMem f P l (fun s2 b hb => h s2 b (List.mem_cons_of_mem a hb)) (f s a)
      (h s a (List.mem_cons_self a l) hs)

theorem insertState_mem_cases {x s : State} {l : List State} (h : x ∈ insertState s l) :
    x ∈ l ∨ x = s := by
  unfold insertState at h
  split at h
  · exact Or.inl h
  · rcases List.mem_append.mp h with h | h
    · exact Or.inl h
    · exact Or.inr (List.mem_singleton.mp h)

theorem update_some_isSome {f : Nat → Option Nat} {s a v : Nat} (h : (f s).isSome) :
    ((Function.update f a (some v)) s).isSome := by
  by_cases heq : s = a
  · subst heq; simp
  · simpa [Function.update, heq] using h

theorem renumberValue_some {r : Nat → Option Nat} {s v : Nat} (h : r s = some v) :
    renumberValue r s = v := by
  simp [renumberValue, h]

theorem renumberInv_assign (st : RenumberSt) (s : Nat) (h : RenumberInv st) :
    RenumberInv { out := { st.out with numStates := st.out.numStates + 1 },
                  ren := Function.update st.ren s (some st.out.numStates) } := by
  obtain ⟨h1, h2, h3, h4⟩ := h
  refine ⟨?_, ?_, ?_, ?_⟩
  · intro s2 v hv
    show v < st.out.numStates + 1
    dsimp only at hv
    by_cases heq : s2 = s
    · subst heq
      rw [Function.update_same] at hv
      have := Option.some.inj hv
      omega
    · rw [Function.update_noteq heq] at hv
      have := h1 s2 v hv
      omega
  · intro x hx
    show x < st.out.numStates + 1
    have := h2 x hx
    exact Nat.lt_succ_of_lt this
  · intro x hx
    show x < st.out.numStates + 1
    have := h3 x hx
    exact Nat.lt_succ_of_lt this
  · intro t ht
    show t.src < st.out.numStates + 1 ∧ t.tgt < st.out.numStates + 1
    have := h4 t ht
    exact ⟨Nat.lt_succ_of_lt this.1, Nat.lt_succ_of_lt this.2⟩

theorem renumberInv_make_final (st : RenumberSt) (h : RenumberInv st) {s v : Nat}
    (hs : st.ren s = some v) :
    RenumberInv { st with out := st.out.make_final (renumberValue st.ren s) } := by
  obtain ⟨h1, h2, h3, h4⟩ := h
  rw [renumberValue_some hs]
  refine ⟨h1, h2, ?_, h4⟩
  intro x hx
  rcases insertState_mem_cases hx with hx | hx
  · exact h3 x hx
  · rw [hx]
    exact h1 s v hs

theorem renumberInv_add_trans (st : RenumberSt) (h : RenumberInv st) {s v t w : Nat}
    (sy : Symbol) (hs : st.ren s = some v) (ht : st.ren t = some w) :
    RenumberInv { st with
      out := st.out.add_trans (renumberValue st.ren s) sy (renumberValue st.ren t) } := by
  obtain ⟨h1, h2, h3, h4⟩ := h
  refine ⟨?_, ?_, ?_, ?_⟩
  · intro s2 u hu
    dsimp only at hu ⊢
    rw [add_trans_num]
    exact h1 s2 u hu
  · intro x hx
    dsimp only at hx ⊢
    rw [add_trans_num]
    rw [add_trans_initial] at hx
    exact h2 x hx
  · intro x hx
    dsimp only at hx ⊢
    rw [add_trans_num]
    rw [add_trans_final] at hx
    exact h3 x hx
  · intro u hu
    dsimp only at hu ⊢
    rw [add_trans_num]
    rcases add_trans_trans_cases hu with hu | hu
    · exact h4 u hu
    · rw [hu]
      dsimp only
      rw [renumberValue_some hs, renumberValue_some ht]
      exact ⟨h1 s v hs, h1 t w ht⟩

theorem renumberAssign_inv (st : RenumberSt) (x : Nat) (h : RenumberInv st) :
    RenumberInv (renumberAssign st x) := by
  unfold renumberAssign
  cases hr : st.ren x with
  | none => exact renumberInv_assign st x h
  | some v => exact h

theorem renumberAssign_some_mono (st : RenumberSt) (x s : Nat) (h : (st.ren s).isSome) :
    ((renumberAssign st x).ren s).isSome := by
  unfold renumberAssign
  cases hr : st.ren x with
  | none => exact update_some_isSome h
  | some v => exact h

theorem renumberAssign_self (st : RenumberSt) (x : Nat) :
    ((renumberAssign st x).ren x).isSome := by
  unfold renumberAssign
  cases hr : st.ren x with
  | none =>
    show (Function.update st.ren x (some st.out.numStates) x).isSome
    rw [Function.update_same]
    rfl
  | some v =>
    show (st.ren x).isSome
    rw [hr]
    rfl

theorem renumberLoop1_inv (input : Nfa) (sz : Nat) (st : RenumberSt) (h : RenumberInv st) :
    RenumberInv (renumberLoop1 input sz st) := by
  unfold renumberLoop1
  refine foldlPreserve _ RenumberInv ?_ _ st h
  intro st2 a h2
  dsimp only
  split
  · exact h2
  · exact renumberInv_assign st2 a h2

theorem renumberLoop1_some_mono (input : Nfa) (sz : Nat) (st : RenumberSt) (s : Nat)
    (h : (st.ren s).isSome) : ((renumberLoop1 input sz st).ren s).isSome := by
  unfold renumberLoop1
  refine foldlPreserve _ (fun x => (x.ren s).isSome) ?_ _ st h
  intro st2 a h2
  dsimp only
  split
  · exact h2
  · exact update_some_isSome h2

theorem renumberLoop1_assigns (input : Nfa) (sz : Nat) (st : RenumberSt) (s0 : Nat)
    (h1 : s0 < sz) (h2 : transitions_from_state input s0 ≠ []) :
    ((renumberLoop1 input sz st).ren s0).isSome := by
  unfold renumberLoop1
  refine foldlEstablish _ (fun x => (x.ren s0).isSome) (fun _ => True) ?_ ?_ s0 ?_
    (List.range sz) st (List.mem_range.mpr h1) trivial
  · intro _ _ _; trivial
  · intro st2 a hp
    dsimp only
    split
    · exact hp
    · exact update_some_isSome hp
  · intro st2 _
    dsimp only
    rw [if_neg h2]
    show (Function.update st2.ren s0 (some st2.out.numStates) s0).isSome
    rw [Function.update_same]
    rfl

theorem renumberLoop2_inv (input : Nfa) (st : RenumberSt) (h : RenumberInv st) :
    RenumberInv (renumberLoop2 input st) := by
  unfold renumberLoop2
  refine foldlPreserve _ RenumberInv ?_ _ st h
  intro st2 a h2
  dsimp only
  have hinv1 : RenumberInv (renumberAssign st2 a) := renumberAssign_inv st2 a h2
  obtain ⟨v, hv⟩ := Option.isSome_iff_exists.mp (renumberAssign_self st2 a)
  exact renumberInv_make_final _ hinv1 hv

theorem renumberLoop2_some_mono (input : Nfa) (st : RenumberSt) (s : Nat)
    (h : (st.ren s).isSome) : ((renumberLoop2 input st).ren s).isSome := by
  unfold renumberLoop2
  refine foldlPreserve _ (fun x => (x.ren s).isSome) ?_ _ st h
  intro st2 a h2
  dsimp only
  exact renumberAssign_some_mono st2 a s h2

theorem renumberLoop2_assigns (input : Nfa) (st : RenumberSt) (f0 : Nat)
    (hf : f0 ∈ input.finalstates) : ((renumberLoop2 input st).ren f0).isSome := by
  unfold renumberLoop2
  refine foldlEstablish _ (fun x => (x.ren f0).isSome) (fun _ => True) ?_ ?_ f0 ?_
    (sortStates input.finalstates) st ?_ trivial
  · intro _ _ _; trivial
  · intro st2 a hp
    dsimp only
    exact renumberAssign_some_mono st2 a f0 hp
  · intro st2 _
    dsimp only
    exact renumberAssign_self st2 f0
  · unfold sortStates
    rw [List.mem_mergeSort]
    exact hf

theorem renumberLoop3_all (input : Nfa) (sz : Nat) (st : RenumberSt)
    (h : RenumberInv st ∧
      (∀ s, s < sz → transitions_from_state input s ≠ [] → (st.ren s).isSome) ∧
      (∀ f ∈ input.finalstates, (st.ren f).isSome)) :
    RenumberInv (renumberLoop3 input sz st) ∧
      (∀ s, s < sz → transitions_from_state input s ≠ [] →
        ((renumberLoop3 input sz st).ren s).isSome) ∧
      (∀ f ∈ input.finalstates, ((renumberLoop3 input sz st).ren f).isSome) := by
  unfold renumberLoop3
  refine foldlPreserveMem _ (fun x => RenumberInv x ∧
    (∀ s, s < sz → transitions_from_state input s ≠ [] → (x.ren s).isSome) ∧
    (∀ f ∈ input.finalstates, (x.ren f).isSome)) _ ?_ st h
  intro st2 s hs hP
  have hslt : s < sz := List.mem_range.mp hs
  dsimp only
  refine foldlPreserveMem _ (fun x => RenumberInv x ∧
    (∀ s2, s2 < sz → transitions_from_state input s2 ≠ [] → (x.ren s2).isSome) ∧
    (∀ f ∈ input.finalstates, (x.ren f).isSome)) _ ?_ st2 hP
  intro st3 t ht hP3
  obtain ⟨hinv, hsome, hfin⟩ := hP3
  have htne : transitions_from_state input s ≠ [] := List.ne_nil_of_mem ht
  dsimp only
  have hinv1 : RenumberInv (renumberAssign st3 t.tgt) := renumberAssign_inv st3 t.tgt hinv
  obtain ⟨vs, hvs⟩ := Option.isSome_iff_exists.mp
    (renumberAssign_some_mono st3 t.tgt s (hsome s hslt htne))
  obtain ⟨vt, hvt⟩ := Option.isSome_iff_exists.mp (renumberAssign_self st3 t.tgt)
  refine ⟨renumberInv_add_trans _ hinv1 t.symb hvs hvt, ?_, ?_⟩
  · intro s2 h1 h2
    exact renumberAssign_some_mono st3 t.tgt s2 (hsome s2 h1 h2)
  · intro f hf
    exact renumberAssign_some_mono st3 t.tgt f (hfin f hf)

theorem renumber_states_dense (sz : Nat) (input : Nfa)
    (hinit : ∀ s ∈ input.initialstates,
      (transitions_from_state input s ≠ [] ∧ s < sz) ∨ s ∈ input.finalstates) :
    NfaDense (renumber_states sz input) := by
  show NfaDense ((sortStates input.initialstates).foldl
    (fun n s => n.make_initial (renumberValue
      (renumberLoop3 input sz (renumberLoop2 input (renumberLoop1 input sz
        { out := Nfa.mk 0 [] [] [], ren := fun _ => none }))).ren s))
    (renumberLoop3 input sz (renumberLoop2 input (renumberLoop1 input sz
      { out := Nfa.mk 0 [] [] [], ren := fun _ => none }))).out)
  set st0 : RenumberSt := { out := Nfa.mk 0 [] [] [], ren := fun _ => none } with hst0
  have hinv0 : RenumberInv st0 := by
    refine ⟨?_, ?_, ?_, ?_⟩ <;> simp [hst0]
  set st1 := renumberLoop1 input sz st0 with hst1
  set st2 := renumberLoop2 input st1 with hst2
  set st3 := renumberLoop3 input sz st2 with hst3
  have hinv1 : RenumberInv st1 := renumberLoop1_inv input sz st0 hinv0
  have hsome1 : ∀ s, s < sz → transitions_from_state input s ≠ [] → (st1.ren s).isSome :=
    fun s h1 h2 => renumberLoop1_assigns input sz st0 s h1 h2
  have hinv2 : RenumberInv st2 := renumberLoop2_inv input st1 hinv1
  have hsome2 : ∀ s, s < sz → transitions_from_state input s ≠ [] → (st2.ren s).isSome :=
    fun s h1 h2 => renumberLoop2_some_mono input st1 s (hsome1 s h1 h2)
  have hfin2 : ∀ f ∈ input.finalstates, (st2.ren f).isSome :=
    fun f hf => renumberLoop2_assigns input st1 f hf
  obtain ⟨hinv3, hsome3, hfin3⟩ := renumberLoop3_all input sz st2 ⟨hinv2, hsome2, hfin2⟩
  have hfold : ∀ (l : List State), (∀ s ∈ l, s ∈ input.initialstates) →
      ∀ (n : Nfa), n.numStates = st3.out.numStates ∧ NfaDense n →
      (l.foldl (fun n s => n.make_initial (renumberValue st3.ren s)) n).numStates =
          st3.out.numStates ∧
        NfaDense (l.foldl (fun n s => n.make_initial (renumberValue st3.ren s)) n) := by
    intro l hl
    refine foldlPreserveMem _
      (fun n => n.numStates = st3.out.numStates ∧ NfaDense n) l ?_
    intro n s hs hP
    obtain ⟨hnum, hd1, hd2, hd3⟩ := hP
    have hsin : s ∈ input.initialstates := hl s hs
    have hassigned : (st3.ren s).isSome := by
      rcases hinit s hsin with ⟨h1, h2⟩ | h1
      · exact hsome3 s h2 h1
      · exact hfin3 s h1
    obtain ⟨v, hv⟩ := Option.isSome_iff_exists.mp hassigned
    refine ⟨hnum, ?_, hd2, hd3⟩
    intro x hx
    rcases insertState_mem_cases hx with hx | hx
    · exact hd1 x hx
    · rw [hx, renumberValue_some hv]
      show v < n.numStates
      rw [hnum]
      exact hinv3.1 s v hv
  have hmem : ∀ s ∈ sortStates input.initialstates, s ∈ input.initialstates := by
    intro s hs
    unfold sortStates at hs
    rwa [List.mem_mergeSort] at hs
  exact (hfold (sortStates input.initialstates) hmem st3.out
    ⟨Eq.refl _, hinv3.2.1, hinv3.2.2.1, hinv3.2.2.2⟩).2

theorem ceStep_mem (ue : Bool) (cur mt : Nat) (st : ConvertSt) (sym : Symbol)
    (hinc : st.incoming cur = true) :
    Trans.mk cur sym mt ∈ (ceStep ue cur mt st sym).nfa.trans := by
  unfold ceStep
  cases ue with
  | true =>
    simp only [if_true]
    rw [if_pos hinc]
    exact add_trans_mem _ _ _ _
  | false =>
    simp only [Bool.false_eq_true, if_false]
    split
    · exact add_trans_mem _ _ _ _
    · rename_i hcond
      exact absurd hinc (by simpa using hcond)

theorem ceLoops_mem_src (mapping : Nat → List Nat) (ue : Bool) (cur : Nat) (inst : Inst)
    (symbols : List Symbol) (hcur : mapping cur = [cur]) (hts : mapping inst.out ≠ [])
    (hsym : symbols ≠ []) (st : ConvertSt) (hinc : st.incoming cur = true) :
    ∃ t ∈ (ceLoops mapping ue cur inst symbols st).nfa.trans, t.src = cur := by
  obtain ⟨t0, ts, hts2⟩ : ∃ t0 ts, mapping inst.out = t0 :: ts := by
    cases h : mapping inst.out with
    | nil => exact absurd h hts
    | cons a l => exact ⟨a, l, rfl⟩
  obtain ⟨s0, ss, hss⟩ : ∃ s0 ss, symbols = s0 :: ss := by
    cases h : symbols with
    | nil => exact absurd h hsym
    | cons a l => exact ⟨a, l, rfl⟩
  unfold ceLoops
  rw [hcur]
  simp only [List.foldl_cons, List.foldl_nil]
  rw [hts2]
  simp only [List.foldl_cons]
  have hstep1 : ∃ t ∈ (symbols.foldl (ceStep ue cur t0) st).nfa.trans, t.src = cur := by
    rw [hss]
    simp only [List.foldl_cons]
    refine foldlPreserve (ceStep ue cur t0)
      (fun (x : ConvertSt) => ∃ t ∈ x.nfa.trans, t.src = cur) ?_ ss _ ?_
    · rintro s2 a ⟨t, htm, hsrc⟩
      exact ⟨t, (ceStep_le ue cur t0 s2 a).1 t htm, hsrc⟩
    · exact ⟨Trans.mk cur s0 t0, ceStep_mem ue cur t0 st s0 hinc, rfl⟩
  refine foldlPreserve (fun st mt => List.foldl (ceStep ue cur mt) st symbols)
    (fun (x : ConvertSt) => ∃ t ∈ x.nfa.trans, t.src = cur) ?_ ts _ hstep1
  rintro s2 mt ⟨t, htm, hsrc⟩
  exact ⟨t, (foldl_convertLe _ (fun s3 sym => ceStep_le ue cur mt s3 sym) symbols s2).1 t htm,
    hsrc⟩

theorem createExplicit_mem_src (mapping : Nat → List Nat) (ue : Bool) (ev : Symbol)
    (cur : Nat) (inst : Inst) (isLast : Bool) (symbols : List Symbol) (st : ConvertSt)
    (hcur : mapping cur = [cur]) (hts : mapping inst.out ≠ []) (hsym : symbols ≠ [])
    (hinc : st.incoming cur = true) :
    ∃ t ∈ (createExplicitTransitions mapping ue ev cur inst isLast symbols st).nfa.trans,
      t.src = cur := by
  obtain ⟨t, htm, hsrc⟩ := ceLoops_mem_src mapping ue cur inst symbols hcur hts hsym st hinc
  unfold createExplicitTransitions
  dsimp only
  split
  · split
    · exact ⟨t, htm, hsrc⟩
    · exact ⟨t, add_trans_trans_mono _ _ _ htm, hsrc⟩
  · exact ⟨t, htm, hsrc⟩

theorem makeStateFinal_mem_self (mapping : Nat → List Nat) (m0 : Nat) (st : ConvertSt)
    (hmap : mapping m0 = [m0]) (hinc : st.incoming m0 = true) :
    m0 ∈ (makeStateFinal mapping m0 st).nfa.finalstates := by
  unfold makeStateFinal
  rw [hmap]
  simp only [List.foldl_cons, List.foldl_nil]
  rw [if_pos hinc]
  exact insertState_self _ _

theorem convertStep_establish_used (prog : Prog) (cache : StateCache) (ue : Bool)
    (ev : Symbol) (m0 : Nat)
    (hmap : cache.state_mapping m0 = [m0])
    (hfin : (prog.inst m0).opcode = Opcode.kInstMatch → cache.is_final_state m0 = true)
    (hnc : (prog.inst m0).opcode = Opcode.kInstCapture ∨ (prog.inst m0).opcode = Opcode.kInstNop →
      ue = true)
    (houtne : cache.state_mapping ((prog.inst m0).out) ≠ [])
    (hbyte : (prog.inst m0).opcode = Opcode.kInstByteRange →
      (prog.inst m0).lo ≤ (prog.inst m0).hi)
    (hew : (prog.inst m0).opcode = Opcode.kInstEmptyWidth →
      emptyWidthSymbols ((prog.inst m0).emptyFlags) ≠ [])
    (st : ConvertSt) (hinc : st.incoming m0 = true) :
    m0 ∈ (convertStep prog cache ue ev st m0).nfa.finalstates ∨
      ∃ t ∈ (convertStep prog cache ue ev st m0).nfa.trans, t.src = m0 := by
  have hinc1 : (if cache.is_final_state m0 = true then
      makeStateFinal cache.state_mapping m0 st else st).incoming m0 = true := by
    split
    · exact (makeStateFinal_le _ _ _).2.2.2 m0 hinc
    · exact hinc
  unfold convertStep
  dsimp only
  cases hop : (prog.inst m0).opcode with
  | kInstMatch =>
    left
    dsimp only
    rw [if_pos (hfin hop)]
    exact makeStateFinal_mem_self cache.state_mapping m0 st hmap hinc
  | kInstNop =>
    right
    have hue := hnc (Or.inr hop)
    subst hue
    dsimp only
    rw [if_pos rfl]
    exact createExplicit_mem_src cache.state_mapping true ev m0 (prog.inst m0)
      (cache.is_last m0) [ev] _ hmap houtne (by simp) hinc1
  | kInstCapture =>
    right
    have hue := hnc (Or.inl hop)
    subst hue
    dsimp only
    rw [if_pos rfl]
    exact createExplicit_mem_src cache.state_mapping true ev m0 (prog.inst m0)
      (cache.is_last m0) [ev] _ hmap houtne (by simp) hinc1
  | kInstEmptyWidth =>
    right
    dsimp only
    rw [if_neg (hew hop)]
    have hst2 := createExplicit_mem_src cache.state_mapping ue ev m0 (prog.inst m0)
      (cache.is_last m0) (emptyWidthSymbols ((prog.inst m0).emptyFlags)) _
      hmap houtne (hew hop) hinc1
    split
    · exact hst2
    · split
      · exact hst2
      · exact hst2
  | kInstByteRange =>
    right
    dsimp only
    have hst2 := createExplicit_mem_src cache.state_mapping ue ev m0 (prog.inst m0)
      (cache.is_last m0) (symbolsRange ((prog.inst m0).lo) ((prog.inst m0).hi)) _
      hmap houtne (symbolsRange_ne_nil (hbyte hop)) hinc1
    split
    · exact hst2
    · split
      · exact hst2
      · exact hst2

theorem cacheMarkLast_mapping (prog : Prog) (cb : CacheBuild) (s : Nat) :
    (cacheMarkLast prog cb s).cache.state_mapping = cb.cache.state_mapping := by
  unfold cacheMarkLast
  split <;> rfl

theorem cacheMarkLast_final (prog : Prog) (cb : CacheBuild) (s : Nat) :
    (cacheMarkLast prog cb s).cache.is_final_state = cb.cache.is_final_state := by
  unfold cacheMarkLast
  split <;> rfl

theorem cacheNopCap_mapping (prog : Prog) (cb : CacheBuild) (s x : Nat) :
    (cacheNopCap prog cb s).cache.state_mapping x =
      Function.update cb.cache.state_mapping s (get_mapped_states prog s) x := by
  unfold cacheNopCap
  dsimp only
  cases h : cb.appendTo with
  | some a =>
    dsimp only
    split <;> rfl
  | none => rfl

theorem cacheNopCap_final (prog : Prog) (cb : CacheBuild) (s : Nat) :
    (cacheNopCap prog cb s).cache.is_final_state = cb.cache.is_final_state := by
  unfold cacheNopCap
  dsimp only
  cases h : cb.appendTo with
  | some a =>
    dsimp only
    split <;> rfl
  | none => rfl

theorem cacheStepNoEps_mapping (prog : Prog) (cb : CacheBuild) (s x : Nat) :
    (cacheStepNoEps prog cb s).cache.state_mapping x =
      if ((prog.inst s).opcode = Opcode.kInstCapture ∨ (prog.inst s).opcode = Opcode.kInstNop)
          ∧ x = s
      then get_mapped_states prog s else cb.cache.state_mapping x := by
  unfold cacheStepNoEps
  dsimp only
  by_cases hnc : (prog.inst s).opcode = Opcode.kInstCapture ∨
      (prog.inst s).opcode = Opcode.kInstNop
  · rw [if_pos hnc, cacheNopCap_mapping, cacheMarkLast_mapping]
    by_cases hx : x = s
    · subst hx
      rw [Function.update_same, if_pos ⟨hnc, rfl⟩]
    · rw [Function.update_noteq hx, if_neg (fun h => hx h.2)]
  · rw [if_neg hnc, if_neg (show ¬(((prog.inst s).opcode = Opcode.kInstCapture ∨
        (prog.inst s).opcode = Opcode.kInstNop) ∧ x = s) from fun h => hnc h.1)]
    split
    · show (cacheMarkLast prog cb s).cache.state_mapping x = cb.cache.state_mapping x
      rw [cacheMarkLast_mapping]
    · show (cacheMarkLast prog cb s).cache.state_mapping x = cb.cache.state_mapping x
      rw [cacheMarkLast_mapping]

theorem cacheStepNoEps_final_mono (prog : Prog) (cb : CacheBuild) (s x : Nat)
    (h : cb.cache.is_final_state x = true) :
    (cacheStepNoEps prog cb s).cache.is_final_state x = true := by
  unfold cacheStepNoEps
  dsimp only
  split
  · rw [cacheNopCap_final, cacheMarkLast_final]
    exact h
  · split
    · show Function.update (cacheMarkLast prog cb s).cache.is_final_state s true x = true
      by_cases hx : x = s
      · subst hx
        rw [Function.update_same]
      · rw [Function.update_noteq hx, cacheMarkLast_final]
        exact h
    · show (cacheMarkLast prog cb s).cache.is_final_state x = true
      rw [cacheMarkLast_final]
      exact h

theorem cacheStepNoEps_final_set (prog : Prog) (cb : CacheBuild) (s : Nat)
    (h : (prog.inst s).opcode = Opcode.kInstMatch) :
    (cacheStepNoEps prog cb s).cache.is_final_state s = true := by
  unfold cacheStepNoEps
  dsimp only
  have hnc : ¬((prog.inst s).opcode = Opcode.kInstCapture ∨
      (prog.inst s).opcode = Opcode.kInstNop) := by
    rw [h]
    decide
  rw [if_neg hnc, if_pos h]
  show Function.update (cacheMarkLast prog cb s).cache.is_final_state s true s = true
  rw [Function.update_same]

theorem cacheNoEps_mapping_self (prog : Prog) (x : Nat)
    (hx : ¬((prog.inst x).opcode = Opcode.kInstCapture ∨
      (prog.inst x).opcode = Opcode.kInstNop)) :
    (create_state_cache_without_epsilon prog).state_mapping x = [x] := by
  unfold create_state_cache_without_epsilon
  dsimp only
  refine foldlPreserve (cacheStepNoEps prog)
    (fun (cb : CacheBuild) => cb.cache.state_mapping x = [x]) ?_ _ _ rfl
  intro cb s hcb
  rw [cacheStepNoEps_mapping]
  rw [if_neg ?_]
  · exact hcb
  · rintro ⟨hnc, rfl⟩
    exact hx hnc

theorem cacheNoEps_mapping_nopcap (prog : Prog) (x : Nat)
    (hx : (prog.inst x).opcode = Opcode.kInstCapture ∨ (prog.inst x).opcode = Opcode.kInstNop)
    (hmem : x ∈ List.range' prog.start (prog.size - prog.start)) :
    (create_state_cache_without_epsilon prog).state_mapping x = get_mapped_states prog x := by
  unfold create_state_cache_without_epsilon
  dsimp only
  refine foldlEstablish (cacheStepNoEps prog)
    (fun (cb : CacheBuild) => cb.cache.state_mapping x = get_mapped_states prog x)
    (fun _ => True) (fun _ _ _ => trivial) ?_ x ?_ _ _ hmem trivial
  · intro cb s hcb
    rw [cacheStepNoEps_mapping]
    by_cases hxs : x = s
    · subst hxs
      rw [if_pos ⟨hx, rfl⟩]
    · rw [if_neg (fun h => hxs h.2)]
      exact hcb
  · intro cb _
    rw [cacheStepNoEps_mapping, if_pos ⟨hx, rfl⟩]

theorem cacheNoEps_final_match (prog : Prog) (x : Nat)
    (hx : (prog.inst x).opcode = Opcode.kInstMatch)
    (hmem : x ∈ List.range' prog.start (prog.size - prog.start)) :
    (create_state_cache_without_epsilon prog).is_final_state x = true := by
  unfold create_state_cache_without_epsilon
  dsimp only
  refine foldlEstablish (cacheStepNoEps prog)
    (fun (cb : CacheBuild) => cb.cache.is_final_state x = true)
    (fun _ => True) (fun _ _ _ => trivial) ?_ x ?_ _ _ hmem trivial
  · intro cb s hcb
    exact cacheStepNoEps_final_mono prog cb s x hcb
  · intro cb _
    exact cacheStepNoEps_final_set prog cb x hx

theorem get_mapped_states_spec (prog : Prog) (hwf : ProgWF prog) (s : Nat)
    (hs1 : prog.start ≤ s) (hs2 : s < prog.size) :
    ∀ x ∈ get_mapped_states prog s, prog.start ≤ x ∧ x < prog.size ∧
      (prog.inst x).opcode ≠ Opcode.kInstCapture ∧ (prog.inst x).opcode ≠ Opcode.kInstNop := by
  intro x hx
  refine gmsGo_inv prog hwf.out_ge hwf.out_lt hwf.start_le _ [s] ∅ [] ?_ ?_ x hx
  · intro y hy
    rw [List.mem_singleton.mp hy]
    exact ⟨hs1, hs2⟩
  · intro y hy
    exact absurd hy (List.not_mem_nil y)

theorem cache_m0_spec (prog : Prog) (ue : Bool) (hwf : ProgWF prog) :
    prog.start ≤ convertM0 prog ue ∧ convertM0 prog ue < prog.size ∧
    (create_state_cache prog ue).state_mapping (convertM0 prog ue) = [convertM0 prog ue] ∧
    ((prog.inst (convertM0 prog ue)).opcode = Opcode.kInstCapture ∨
      (prog.inst (convertM0 prog ue)).opcode = Opcode.kInstNop → ue = true) ∧
    ((prog.inst (convertM0 prog ue)).opcode = Opcode.kInstMatch →
      (create_state_cache prog ue).is_final_state (convertM0 prog ue) = true) ∧
    (create_state_cache prog ue).state_mapping ((prog.inst (convertM0 prog ue)).out) ≠ [] := by
  obtain ⟨nu, hnu, hdec⟩ := hwf.acyclic
  cases ue with
  | true =>
    have hm0 : convertM0 prog true = prog.start := rfl
    rw [hm0]
    refine ⟨Nat.le_refl _, hwf.start_lt, rfl, fun _ => rfl, ?_, ?_⟩
    · intro hmatch
      show (decide (prog.start < prog.size) &&
        decide ((prog.inst prog.start).opcode = Opcode.kInstMatch)) = true
      simp [hmatch, hwf.start_lt]
    · show ([(prog.inst prog.start).out] ≠ [])
      simp
  | false =>
    have hcache : create_state_cache prog false = create_state_cache_without_epsilon prog := rfl
    have hkey : prog.start ≤ convertM0 prog false ∧ convertM0 prog false < prog.size ∧
        (prog.inst (convertM0 prog false)).opcode ≠ Opcode.kInstCapture ∧
        (prog.inst (convertM0 prog false)).opcode ≠ Opcode.kInstNop := by
      by_cases hnc : (prog.inst prog.start).opcode = Opcode.kInstCapture ∨
          (prog.inst prog.start).opcode = Opcode.kInstNop
      · have hmemst : prog.start ∈ List.range' prog.start (prog.size - prog.start) := by
          rw [List.mem_range'_1]
          refine ⟨Nat.le_refl _, ?_⟩
          have := hwf.start_lt
          omega
        have hmapst : (create_state_cache prog false).state_mapping prog.start =
            get_mapped_states prog prog.start := by
          rw [hcache]
          exact cacheNoEps_mapping_nopcap prog prog.start hnc hmemst
        have hne : get_mapped_states prog prog.start ≠ [] :=
          get_mapped_states_ne_nil prog nu hnu hwf.out_lt hdec prog.start hwf.start_lt hnc
        obtain ⟨a, as, hl⟩ := List.exists_cons_of_ne_nil hne
        have hm0 : convertM0 prog false = a := by
          show ((create_state_cache prog false).state_mapping prog.start).headD 0 = a
          rw [hmapst, hl]
          rfl
        have hamem : a ∈ get_mapped_states prog prog.start := by
          rw [hl]
          exact List.mem_cons_self a as
        have hspec := get_mapped_states_spec prog hwf prog.start (Nat.le_refl _)
          hwf.start_lt a hamem
        rw [hm0]
        exact ⟨hspec.1, hspec.2.1, hspec.2.2.1, hspec.2.2.2⟩
      · have hmapst : (create_state_cache prog false).state_mapping prog.start =
            [prog.start] := by
          rw [hcache]
          exact cacheNoEps_mapping_self prog prog.start hnc
        have hm0 : convertM0 prog false = prog.start := by
          show ((create_state_cache prog false).state_mapping prog.start).headD 0 = prog.start
          rw [hmapst]
          rfl
        rw [hm0]
        refine ⟨Nat.le_refl _, hwf.start_lt, ?_, ?_⟩
        · intro hc
          exact hnc (Or.inl hc)
        · intro hc
          exact hnc (Or.inr hc)
    obtain ⟨hge, hlt, hnc1, hnc2⟩ := hkey
    have hncall : ¬((prog.inst (convertM0 prog false)).opcode = Opcode.kInstCapture ∨
        (prog.inst (convertM0 prog false)).opcode = Opcode.kInstNop) := by
      rintro (h | h)
      · exact hnc1 h
      · exact hnc2 h
    refine ⟨hge, hlt, ?_, ?_, ?_, ?_⟩
    · rw [hcache]
      exact cacheNoEps_mapping_self prog _ hncall
    · intro h
      exact absurd h hncall
    · intro hmatch
      rw [hcache]
      refine cacheNoEps_final_match prog _ hmatch ?_
      rw [List.mem_range'_1]
      exact ⟨hge, by omega⟩
    · have hout_ge := hwf.out_ge _ hlt
      have hout_lt := hwf.out_lt _ hlt
      by_cases hnco : (prog.inst ((prog.inst (convertM0 prog false)).out)).opcode =
          Opcode.kInstCapture ∨
          (prog.inst ((prog.inst (convertM0 prog false)).out)).opcode = Opcode.kInstNop
      · rw [hcache, cacheNoEps_mapping_nopcap prog _ hnco (by
          rw [List.mem_range'_1]
          exact ⟨hout_ge, by omega⟩)]
        exact get_mapped_states_ne_nil prog nu hnu hwf.out_lt hdec _ hout_lt hnco
      · rw [hcache, cacheNoEps_mapping_self prog _ hnco]
        simp

theorem backPropStep_le (prog : Prog) (mapping : Nat → List Nat)
    (p : ConvertSt × (Nat → Bool)) (edge : Nat × Nat) :
    ConvertLe p.1 (backPropStep prog mapping p edge).1 := by
  unfold backPropStep
  dsimp only
  split
  · exact makeStateFinal_le mapping edge.2 p.1
  · have h1 : ConvertLe p.1 ((if p.2 edge.1 = true then
        (makeStateFinal mapping edge.2 p.1, Function.update p.2 edge.2 true) else p).1) := by
      split
      · exact makeStateFinal_le mapping edge.2 p.1
      · exact ConvertLe.rfl p.1
    refine h1.trans ?_
    refine foldl_convertLe _ ?_ _ _
    intro s tr
    dsimp only
    have h2 : ConvertLe s (if s.incoming edge.2 = true then
        { s with nfa := s.nfa.add_trans edge.2 tr.1 tr.2 } else s) := by
      split
      · exact addTrans_convertLe s edge.2 tr.1 tr.2
      · exact ConvertLe.rfl s
    refine h2.trans ?_
    exact ⟨fun x hx => hx, fun x hx => hx, Eq.refl _, fun x hx => hx⟩

theorem explicitNfaOf_used (prog : Prog) (ue : Bool) (ev : Symbol) (hwf : ProgWF prog) :
    (explicitNfaOf prog ue ev).nfa.initialstates = [convertM0 prog ue] ∧
    (convertM0 prog ue ∈ (explicitNfaOf prog ue ev).nfa.finalstates ∨
      ∃ t ∈ (explicitNfaOf prog ue ev).nfa.trans, t.src = convertM0 prog ue) := by
  obtain ⟨hge, hlt, hmap, hnc, hfin, houtne⟩ := cache_m0_spec prog ue hwf
  set st0 : ConvertSt :=
    { nfa := (Nfa.mk prog.size [] [] []).make_initial (convertM0 prog ue)
      copyEdgesFromTo := startCopyEdges prog (create_state_cache prog ue)
      outgoingEdges := fun _ => []
      incoming := Function.update (create_state_cache prog ue).has_state_incoming_edge
        (convertM0 prog ue) true } with hst0
  set st1 := (List.range' prog.start (prog.size - prog.start)).foldl
    (convertStep prog (create_state_cache prog ue) ue ev) st0 with hst1
  have hexp : explicitNfaOf prog ue ev =
      if ue then st1
      else (st1.copyEdgesFromTo.reverse.foldl
        (backPropStep prog (create_state_cache prog ue).state_mapping)
        (st1, (create_state_cache prog ue).is_final_state)).1 := rfl
  have hm0mem : convertM0 prog ue ∈ List.range' prog.start (prog.size - prog.start) := by
    rw [List.mem_range'_1]
    exact ⟨hge, by omega⟩
  have hst0inc : st0.incoming (convertM0 prog ue) = true := by
    rw [hst0]
    exact Function.update_same _ _ _
  have hP : convertM0 prog ue ∈ st1.nfa.finalstates ∨
      ∃ t ∈ st1.nfa.trans, t.src = convertM0 prog ue := by
    rw [hst1]
    refine foldlEstablish (convertStep prog (create_state_cache prog ue) ue ev)
      (fun (x : ConvertSt) => convertM0 prog ue ∈ x.nfa.finalstates ∨
        ∃ t ∈ x.nfa.trans, t.src = convertM0 prog ue)
      (fun (x : ConvertSt) => x.incoming (convertM0 prog ue) = true)
      ?_ ?_ (convertM0 prog ue) ?_ _ _ hm0mem hst0inc
    · intro s a hs
      exact (convertStep_le prog _ ue ev s a).2.2.2 _ hs
    · rintro s a (hf | ⟨t, htm, hsrc⟩)
      · exact Or.inl ((convertStep_le prog _ ue ev s a).2.1 _ hf)
      · exact Or.inr ⟨t, (convertStep_le prog _ ue ev s a).1 t htm, hsrc⟩
    · intro s hs
      refine convertStep_establish_used prog _ ue ev (convertM0 prog ue) hmap hfin hnc houtne
        ?_ ?_ s hs
      · intro h
        exact hwf.byte_le _ hlt h
      · intro h
        exact emptyWidthSymbols_ne_nil (hwf.empty_ne _ hlt h).1 (hwf.empty_ne _ hlt h).2
  have hInit : st1.nfa.initialstates = [convertM0 prog ue] := by
    rw [hst1]
    have hfold := foldl_convertLe (convertStep prog (create_state_cache prog ue) ue ev)
      (fun s a => convertStep_le prog _ ue ev s a)
      (List.range' prog.start (prog.size - prog.start)) st0
    rw [hfold.2.2.1, hst0]
    rfl
  have hbk : ConvertLe st1 ((st1.copyEdgesFromTo.reverse.foldl
      (backPropStep prog (create_state_cache prog ue).state_mapping)
      (st1, (create_state_cache prog ue).is_final_state)).1) := by
    refine foldlPreserve _ (fun (q : ConvertSt × (Nat → Bool)) => ConvertLe st1 q.1) ?_ _ _
      (ConvertLe.rfl st1)
    intro q e hq
    exact hq.trans (backPropStep_le prog _ q e)
  rw [hexp]
  constructor
  · split
    · exact hInit
    · rw [hbk.2.2.1]
      exact hInit
  · split
    · exact hP
    · rcases hP with hf | ⟨t, htm, hsrc⟩
      · exact Or.inl (hbk.2.1 _ hf)
      · exact Or.inr ⟨t, hbk.1 t htm, hsrc⟩

/-- Witness for C9: a two-instruction program whose first instruction is a
`^` (begin-line) assertion. -/
theorem empty_width_encoding_witness :
    ((Prog.mk [Inst.mk Opcode.kInstEmptyWidth 1 true 0 0 1,
               Inst.mk Opcode.kInstMatch 0 true 0 0 0] 0).start ≤ 0) ∧
    Trans.mk 0 (emptyWidthSymbolOfBit 0)
        (((Prog.mk [Inst.mk Opcode.kInstEmptyWidth 1 true 0 0 1,
                    Inst.mk Opcode.kInstMatch 0 true 0 0 0] 0).inst 0).out) ∈
      (explicitNfaOf
        (Prog.mk [Inst.mk Opcode.kInstEmptyWidth 1 true 0 0 1,
                  Inst.mk Opcode.kInstMatch 0 true 0 0 0] 0) true 99).nfa.trans :=
  ⟨Nat.le.refl,
   empty_width_encoding
     (Prog.mk [Inst.mk Opcode.kInstEmptyWidth 1 true 0 0 1,
               Inst.mk Opcode.kInstMatch 0 true 0 0 0] 0) 99 0 0
     (by decide) (by decide) (by decide) (by decide) (by decide)⟩

/-- C5: for every compiled regex program that satisfies the contract the
compiler relies on (`ProgWF`, modelled from the RE2 contract since parsing
and compilation live in the external RE2 library) and for both values of
`use_epsilon`, the NFA emitted by `create_nfa` satisfies the dense-state
invariant: every state occurring in its initial set, its final set, or as a
source or target of a transition is strictly below its number of states. -/
theorem create_nfa_dense (prog : Prog) (ue : Bool) (ev : Symbol) (hwf : ProgWF prog) :
    NfaDense (create_nfa prog ue ev) := by
  obtain ⟨hge, hlt, hmap, hnc, hfin, houtne⟩ := cache_m0_spec prog ue hwf
  obtain ⟨hinit, hused⟩ := explicitNfaOf_used prog ue ev hwf
  show NfaDense (renumber_states prog.size (explicitNfaOf prog ue ev).nfa)
  refine renumber_states_dense prog.size _ ?_
  intro s hs
  rw [hinit, List.mem_singleton] at hs
  subst hs
  rcases hused with hf | ⟨t, htm, hsrc⟩
  · exact Or.inr hf
  · refine Or.inl ⟨?_, hlt⟩
    intro hnil
    have hmemf : t ∈ transitions_from_state (explicitNfaOf prog ue ev).nfa
        (convertM0 prog ue) := by
      rw [transitions_from_state, List.mem_filter]
      exact ⟨htm, by simp [hsrc]⟩
    rw [hnil] at hmemf
    exact absurd hmemf (List.not_mem_nil t)

/-- Witness for C5: the dense-state invariant of the compiled NFA, in both
`use_epsilon` modes, for a concrete two-instruction program (`a`, `Match`). -/
theorem create_nfa_dense_witness :
    NfaDense (create_nfa progC5 true 1000) ∧ NfaDense (create_nfa progC5 false 1000) := by
  have hwf : ProgWF progC5 := by
    refine ⟨by decide, by decide, ?_, ?_, ?_, ?_, ?_,
      ⟨fun _ => 0, fun _ => show (0 : Nat) < progC5.size by decide, ?_⟩⟩
    · intro i hi
      exact Nat.zero_le _
    · intro i hi
      have hi2 : i < 2 := hi
      interval_cases i <;> decide
    · intro i h1 h2
      have hi2 : i < 2 := h2
      interval_cases i <;> decide
    · intro i hi
      have hi2 : i < 2 := hi
      interval_cases i <;> decide
    · intro i hi
      have hi2 : i < 2 := hi
      interval_cases i <;> decide
    · intro i hi
      have hi2 : i < 2 := hi
      interval_cases i <;> decide
  exact ⟨create_nfa_dense progC5 true 1000 hwf, create_nfa_dense progC5 false 1000 hwf⟩

end Mata
